import Mathlib

/-!
# Magnum: matrices, mesh cleaning, shape groups and the scene graph

A shallow embedding of the parts of the Magnum sources that the specification
talks about, followed by the theorems that settle its claims.

* `Magnum.Math`: `Math/Matrix.h` and `Math/Matrix3.h`. A matrix is stored
  column-major, `m col row` is the C++ `m[col][row]`.
* `Magnum.MeshTools`: `MeshTools/Clean.h`.
* `Magnum.Physics`: `Physics/ShapeGroup.h`, `Physics/Capsule.h`.
* `Magnum.SceneGraph`: the object tree of the specification and
  `SceneGraph/AbstractFeature.h`.

Scalars of `Magnum.Math` and `Magnum.SceneGraph` are exact (a field, ordered
where the code compares), so those results are about the algorithms and not
about floating-point rounding. In `Magnum.MeshTools` the scalars are the
elements of an ordered field and every arithmetic operation of the code is
followed by the rounding of `Vertex::Type`, a parameter; `floatLimits` is single
precision.
-/

namespace Magnum
namespace Math

/-! ## Definitions: `Math/Matrix.h`, `Math/Matrix3.h` -/

/-- Column vector `Vector<size, T>`; `v i` is the C++ `v[i]`. -/
def Vector (size : Nat) (T : Type) : Type := Fin size → T

/-- Square matrix `Matrix<size, T>`, column-major: `m col row` is `m[col][row]`. -/
def Matrix (size : Nat) (T : Type) : Type := Fin size → Fin size → T

/-- The 3x3 matrix `Matrix3<T>` of 2D transformations, a `Matrix<3, T>`. -/
abbrev Matrix3 (T : Type) : Type := Matrix 3 T

/-- Parameters standing for `TypeTraits<T>::epsilon()`, `TypeTraits<T>::equals()`
and `Vector::isNormalized()`, which live in headers that are not among the
sources (`TypeTraits.h`, `Vector.h`). -/
structure TypeTraits (T : Type) where
  /-- The comparison tolerance `TypeTraits<T>::epsilon()`. -/
  epsilon : T
  /-- The scalar comparison behind `Vector::operator==`. -/
  equals : T → T → Bool
  /-- The check `Vector::isNormalized()`. -/
  isNormalized : (size : Nat) → Vector size T → Bool

/-- Modelled from the spec: `Vector::dot` (in `Vector.h`, not among the
sources), the sum of the products of the components. -/
def Vector.dot {size : Nat} {T : Type} [Field T] (a b : Vector size T) : T :=
  ∑ i : Fin size, a i * b i

/-- Modelled from the spec: unary minus of `Vector` (in `Vector.h`, not among
the sources), component-wise. -/
def Vector.neg {size : Nat} {T : Type} [Field T] (a : Vector size T) : Vector size T :=
  fun i => - a i

/-- Modelled from the spec: `Vector::operator==` (in `Vector.h`, not among the
sources), every pair of components compared with `TypeTraits<T>::equals`. -/
def Vector.eq {size : Nat} {T : Type} (tr : TypeTraits T) (a b : Vector size T) : Bool :=
  (List.finRange size).all (fun i => tr.equals (a i) (b i))

/-- The matrix `Matrix(IdentityType, value = 1)`: `value` on the diagonal of a
zero-filled matrix. -/
def Matrix.identity (size : Nat) (T : Type) [Field T] : Matrix size T :=
  fun col row => if col = row then 1 else 0

/-- Modelled from the spec: `RectangularMatrix::operator*` (in
`RectangularMatrix.h`, not among the sources), the matrix product on
column-major storage: `(a*b)[col][row]` sums `a[pos][row]*b[col][pos]`. -/
def Matrix.mul {size : Nat} {T : Type} [Field T] (a b : Matrix size T) : Matrix size T :=
  fun col row => ∑ pos : Fin size, a pos row * b col pos

/-- Modelled from the spec: the matrix-vector product of `RectangularMatrix.h`
(not among the sources): `(a*v)[row]` sums `a[col][row]*v[col]`. -/
def Matrix.mulVec {size : Nat} {T : Type} [Field T] (a : Matrix size T) (v : Vector size T) :
    Vector size T :=
  fun row => ∑ col : Fin size, a col row * v col

/-- Modelled from the spec: `RectangularMatrix::transposed()` (in
`RectangularMatrix.h`, not among the sources). -/
def Matrix.transposed {size : Nat} {T : Type} (m : Matrix size T) : Matrix size T :=
  fun col row => m row col

/-- Modelled from the spec: `RectangularMatrix::row()` (in `RectangularMatrix.h`,
not among the sources): the entries `m[col][row]` over all columns. -/
def Matrix.row {size : Nat} {T : Type} (m : Matrix size T) (row : Fin size) : Vector size T :=
  fun col => m col row

/-- The method `Matrix::isOrthogonal()`: every column passes `isNormalized()`, and no
pair of columns `i < j` has a dot product above `epsilon`. -/
def Matrix.isOrthogonal {size : Nat} {T : Type} [LinearOrderedField T] (tr : TypeTraits T)
    (m : Matrix size T) : Bool :=
  (List.finRange size).all (fun i => tr.isNormalized size (m i)) &&
  (List.finRange size).all (fun i =>
    (List.finRange size).all (fun j =>
      !(decide (i < j) && decide (Vector.dot (m i) (m j) > tr.epsilon))))

/-- The method `Matrix::ij(skipCol, skipRow)`: the matrix without the given column and
row. -/
def Matrix.ij {size : Nat} {T : Type} (m : Matrix (size + 1) T)
    (skipCol skipRow : Nat) : Matrix size T :=
  fun col row =>
    m ⟨col.val + (if col.val ≥ skipCol then 1 else 0), by split <;> omega⟩
      ⟨row.val + (if row.val ≥ skipRow then 1 else 0), by split <;> omega⟩

/-- The functor `Implementation::MatrixDeterminant<size + 1, T>`: the specialisations
for sizes 1 and 2, and the general template, a loop over the columns that
accumulates the expansion along row 0. -/
def Implementation.MatrixDeterminant {T : Type} [Field T] :
    (size : Nat) → Matrix (size + 1) T → T
  | 0, m => m 0 0
  | 1, m => m 0 0 * m 1 1 - m 1 0 * m 0 1
  | size + 2, m =>
    (List.finRange (size + 3)).foldl
      (fun out col =>
        out + (if col.val &&& 1 ≠ 0 then -1 else 1) * m col 0
          * MatrixDeterminant (size + 1) (m.ij col.val 0))
      0

/-- The method `Matrix::determinant()`. -/
def Matrix.determinant {size : Nat} {T : Type} [Field T] (m : Matrix (size + 1) T) : T :=
  Implementation.MatrixDeterminant size m

/-- The method `Matrix::inverted()` for sizes from 2 on: entry `[col][row]` is the
signed determinant of `ij(row, col)` divided by the determinant. -/
def Matrix.inverted {size : Nat} {T : Type} [Field T] (m : Matrix (size + 2) T) :
    Matrix (size + 2) T :=
  let _determinant := m.determinant
  fun col row =>
    (if (row.val + col.val) &&& 1 ≠ 0 then -1 else 1)
      * (m.ij row.val col.val).determinant / _determinant

/-- The factory `Matrix3::from(rotationScaling, translation)`. -/
def Matrix3.from {T : Type} [Field T] (rotationScaling : Matrix 2 T)
    (translation : Vector 2 T) : Matrix3 T :=
  ![![rotationScaling 0 0, rotationScaling 0 1, 0],
    ![rotationScaling 1 0, rotationScaling 1 1, 0],
    ![translation 0, translation 1, 1]]

/-- The method `Matrix3::rotationScaling()`: the upper-left 2x2 part. -/
def Matrix3.rotationScaling {T : Type} (m : Matrix3 T) : Matrix 2 T :=
  ![![m 0 0, m 0 1], ![m 1 0, m 1 1]]

/-- The method `Matrix3::translation() const`: the first two entries of the third
column. -/
def Matrix3.translation {T : Type} (m : Matrix3 T) : Vector 2 T :=
  ![m 2 0, m 2 1]

/-- The method `Matrix3::isRigidTransformation()`. -/
def Matrix3.isRigidTransformation {T : Type} [LinearOrderedField T] (tr : TypeTraits T)
    (m : Matrix3 T) : Bool :=
  (Matrix3.rotationScaling m).isOrthogonal tr && Vector.eq tr (Matrix.row m 2) ![0, 0, 1]

/-- The method `Matrix3::invertedRigid()`; `none` when the assertion
`isRigidTransformation()` fails. -/
def Matrix3.invertedRigid {T : Type} [LinearOrderedField T] (tr : TypeTraits T)
    (m : Matrix3 T) : Option (Matrix3 T) :=
  if Matrix3.isRigidTransformation tr m then
    let inverseRotation := (Matrix3.rotationScaling m).transposed
    some (Matrix3.from inverseRotation
      (inverseRotation.mulVec (Vector.neg (Matrix3.translation m))))
  else none

/-- The row-major Mathlib matrix with the same entries. -/
def Matrix.toMatrix {size : Nat} {T : Type} (m : Matrix size T) :=
  Matrix.of (fun row col : Fin size => m col row)

/-- Traits of an exact scalar type, the rationals: tolerance 0, `equals` is
equality, and a vector is normalized when its squared length is 1. -/
def exactTraits : TypeTraits ℚ where
  epsilon := 0
  equals := fun a b => decide (a = b)
  isNormalized := fun _ v => decide (Vector.dot v v = 1)

/-- A rigid transformation: rotation by a quarter turn, then translation by
`(3, 4)`. -/
def quarterTurn : Matrix3 ℚ :=
  ![![0, 1, 0], ![-1, 0, 0], ![3, 4, 1]]

end Math
end Magnum

namespace Magnum
namespace Math

/-! ## Definitions: further parts of `Math/Matrix.h`, `Math/Matrix3.h` -/

/-- Modelled from the spec: `Vector::operator+` (in `Vector.h`, not among the
sources), component-wise. -/
def Vector.add {size : Nat} {T : Type} [Field T] (a b : Vector size T) : Vector size T :=
  fun i => a i + b i

/-- Modelled from the spec: the constructor `Vector3(const Vector2& xy, T z)` (in
`Vector3.h`, not among the sources). -/
def Vector3.fromXY {T : Type} (xy : Vector 2 T) (z : T) : Vector 3 T :=
  ![xy 0, xy 1, z]

/-- Modelled from the spec: the accessor `Vector3::xy()` (in `Vector3.h`, not
among the sources): the first two components. -/
def Vector3.xy {T : Type} (v : Vector 3 T) : Vector 2 T :=
  ![v 0, v 1]

/-- The method `Matrix::invertedOrthogonal()`; `none` when the assertion
`isOrthogonal()` fails. -/
def Matrix.invertedOrthogonal {size : Nat} {T : Type} [LinearOrderedField T]
    (tr : TypeTraits T) (m : Matrix size T) : Option (Matrix size T) :=
  if m.isOrthogonal tr then some m.transposed else none

/-- The static factory `Matrix3::translation(const Vector2&)`, the 2D
translation matrix (the accessor of the same name is `Matrix3.translation`). -/
def Matrix3.translationMatrix {T : Type} [Field T] (vector : Vector 2 T) : Matrix3 T :=
  ![![1, 0, 0],
    ![0, 1, 0],
    ![vector 0, vector 1, 1]]

/-- The method `Matrix3::transformVector()`. -/
def Matrix3.transformVector {T : Type} [Field T] (m : Matrix3 T) (vector : Vector 2 T) :
    Vector 2 T :=
  Vector3.xy (Matrix.mulVec m (Vector3.fromXY vector 0))

/-- The method `Matrix3::transformPoint()`. -/
def Matrix3.transformPoint {T : Type} [Field T] (m : Matrix3 T) (vector : Vector 2 T) :
    Vector 2 T :=
  Vector3.xy (Matrix.mulVec m (Vector3.fromXY vector 1))

/-- A matrix with the normalized columns `(1, 0)` and `(-1, 0)`, whose dot
product is -1. -/
def oppositeColumns : Matrix 2 ℚ :=
  ![![1, 0], ![-1, 0]]

/-- The quarter turn of the plane, an orthogonal 2x2 matrix. -/
def quarterTurn2 : Matrix 2 ℚ :=
  ![![0, 1], ![-1, 0]]

end Math
end Magnum

namespace Magnum
namespace Math

/-! ## Definitions: identity and scaling matrices of `Math/Matrix3.h` -/

/-- The constructor `Matrix3(IdentityType, value)`: `value` on the diagonal,
zeros elsewhere. The default-constructed `Matrix3()` is `Matrix3.identity 1`. -/
def Matrix3.identity {T : Type} [Field T] (value : T) : Matrix3 T :=
  ![![value, 0, 0],
    ![0, value, 0],
    ![0, 0, value]]

/-- The static factory `Matrix3::scaling(const Vector2&)`, the 2D scaling
matrix. -/
def Matrix3.scaling {T : Type} [Field T] (vector : Vector 2 T) : Matrix3 T :=
  ![![vector 0, 0, 0],
    ![0, vector 1, 0],
    ![0, 0, 1]]

/-- Scaling of the plane by 2 in both directions, an invertible `Matrix3`. -/
def doubling : Matrix3 ℚ :=
  Matrix3.scaling ![2, 2]

end Math
end Magnum

namespace Magnum
namespace MeshTools

/-! ## Definitions: `MeshTools/Clean.h` -/

/-- Parameters standing for the scalar type `Vertex::Type` and for
`std::size_t`: `std::numeric_limits<Vertex::Type>::max()`,
`std::numeric_limits<Vertex::Type>::min()`,
`std::numeric_limits<std::size_t>::max()` and the rounding of `Vertex::Type`.
The scalars are the values of `T` that `Vertex::Type` can hold; every
arithmetic operation on `Vertex::Type` and every conversion to it gives the
exact result rounded by `round`. -/
structure NumericLimits (T : Type) where
  /-- The value `std::numeric_limits<T>::max()`. -/
  max : T
  /-- The value `std::numeric_limits<T>::min()`. -/
  min : T
  /-- The value `std::numeric_limits<std::size_t>::max()`. -/
  sizeMax : Nat
  /-- The value of `Vertex::Type` that an exact result is rounded to. -/
  round : T → T

/-- The entry type `Clean::HashedVertex` of the table. -/
structure HashedVertex where
  /-- Index of the vertex in the vertex array of the pass. -/
  oldIndex : Nat
  /-- Index of the vertex in the shrunk vertex array. -/
  newIndex : Nat
deriving DecidableEq, Repr

/-- The table `std::unordered_map<Math::Vector<vertexSize, std::size_t>, HashedVertex>`
as the list of its entries in insertion order. -/
abbrev Table (vertexSize : Nat) : Type := List ((Fin vertexSize → Nat) × HashedVertex)

/-- Conversion of a scalar to `std::size_t`: the fraction is dropped; values
outside the range, which C++ leaves undefined, are reduced into it. -/
def toSizeT {T : Type} [LinearOrderedField T] [FloorRing T] (lim : NumericLimits T) (x : T) :
    Nat :=
  Int.toNat ⌊x⌋ % (lim.sizeMax + 1)

/-- The "Get mesh bounds" loops of `Clean::operator()`: `min` and `max` start from
`numeric_limits::max()` and `numeric_limits::min()`, and every vertex updates
`min[i]`, or else `max[i]`, for `i < vertexSize`. -/
def meshBounds {size : Nat} {T : Type} [LinearOrderedField T] (lim : NumericLimits T)
    (vertexSize : Nat) (hsize : vertexSize ≤ size) (vertices : List (Math.Vector size T)) :
    Math.Vector size T × Math.Vector size T :=
  vertices.foldl
    (fun bounds it =>
      (List.finRange vertexSize).foldl
        (fun (b : Math.Vector size T × Math.Vector size T) i =>
          if it (Fin.castLE hsize i) < b.1 (Fin.castLE hsize i) then
            (Function.update b.1 (Fin.castLE hsize i) (it (Fin.castLE hsize i)), b.2)
          else if it (Fin.castLE hsize i) > b.2 (Fin.castLE hsize i) then
            (b.1, Function.update b.2 (Fin.castLE hsize i) (it (Fin.castLE hsize i)))
          else b)
        bounds)
    (fun _ => lim.max, fun _ => lim.min)

/-- The loop of `Clean::operator()` that makes `epsilon` so large that
`std::size_t` can index all vertices inside the mesh bounds. `size[i]` is the
component of `Vertex size = max-min`, and `numeric_limits<std::size_t>::max()`
is converted to `Vertex::Type` for the division. -/
def enlargeEpsilon {size : Nat} {T : Type} [LinearOrderedField T] (lim : NumericLimits T)
    (min max : Math.Vector size T) (epsilon : T) : T :=
  (List.finRange size).foldl
    (fun epsilon i =>
      if lim.round (lim.round (max i - min i) / lim.round (lim.sizeMax : T)) > epsilon then
        lim.round (lim.round (max i - min i) / lim.round (lim.sizeMax : T))
      else epsilon)
    epsilon

/-- The array `index` of one vertex: its cell in the `vertexSize`-dimensional
table, `(vertex[ii] + moved[ii] - min[ii])/epsilon` converted to `std::size_t`.
The sum, the difference and the quotient are each rounded to `Vertex::Type`. -/
def cellIndex {size : Nat} {T : Type} [LinearOrderedField T] [FloorRing T]
    (lim : NumericLimits T) (vertexSize : Nat) (hsize : vertexSize ≤ size)
    (min moved : Math.Vector size T) (epsilon : T) (vertex : Math.Vector size T) :
    Fin vertexSize → Nat :=
  fun ii => toSizeT lim
    (lim.round
      (lim.round
          (lim.round (vertex (Fin.castLE hsize ii) + moved (Fin.castLE hsize ii))
            - min (Fin.castLE hsize ii))
        / epsilon))

/-- One iteration of the loop over `indices`: try to insert the vertex under
its cell into the table; the index entry becomes the `newIndex` stored under
that cell, which is the existing one if the cell was taken. The first
component is the table, the second the index entries rewritten so far. -/
def insertVertex {vertexSize : Nat} (cell : Nat → Fin vertexSize → Nat)
    (state : Table vertexSize × List Nat) (it : Nat) : Table vertexSize × List Nat :=
  let v : HashedVertex := ⟨it, state.1.length⟩
  match state.1.find? (fun entry => decide (entry.1 = cell it)) with
  | some entry => (state.1, state.2 ++ [entry.2.newIndex])
  | none => (state.1 ++ [(cell it, v)], state.2 ++ [v.newIndex])

/-- The step "Shrink vertices array": a new array of `table.size()` default
vertices, in which every table entry stores `vertices[oldIndex]` at `newIndex`.
Reading outside `vertices` gives the default vertex here. -/
def shrinkVertices {vertexSize size : Nat} {T : Type} [LinearOrderedField T]
    (table : Table vertexSize) (vertices : List (Math.Vector size T)) :
    List (Math.Vector size T) :=
  table.foldl
    (fun newVertices entry =>
      newVertices.set entry.2.newIndex (vertices.getD entry.2.oldIndex (fun _ => 0)))
    (List.replicate table.length (fun _ => 0))

/-- One pass of the `moving` loop of `Clean::operator()` for a given `moved`:
rebuild the table from the index array, rewrite the indices, shrink the
vertex array. The state is the pair of the index and the vertex array. -/
def cleanPass {size : Nat} {T : Type} [LinearOrderedField T] [FloorRing T]
    (lim : NumericLimits T) (vertexSize : Nat) (hsize : vertexSize ≤ size)
    (min : Math.Vector size T) (epsilon : T) (moved : Math.Vector size T)
    (state : List Nat × List (Math.Vector size T)) : List Nat × List (Math.Vector size T) :=
  let result := state.1.foldl
    (insertVertex (fun it =>
      cellIndex lim vertexSize hsize min moved epsilon (state.2.getD it (fun _ => 0))))
    ([], [])
  (result.2, shrinkVertices result.1 state.2)

/-- The body of the loop `for(moving = 0; moving <= vertexSize; ++moving)`: run
the pass with the current `moved`, then move the coordinates by `epsilon/2`
(rounded to `Vertex::Type`) in the next direction. The loop state is the index
and vertex arrays and `moved`. -/
def movingStep {size : Nat} {T : Type} [LinearOrderedField T] [FloorRing T]
    (lim : NumericLimits T) (vertexSize : Nat) (hsize : vertexSize ≤ size)
    (min : Math.Vector size T) (epsilon : T)
    (loop : (List Nat × List (Math.Vector size T)) × Math.Vector size T) (moving : Nat) :
    (List Nat × List (Math.Vector size T)) × Math.Vector size T :=
  (cleanPass lim vertexSize hsize min epsilon loop.2 loop.1,
    if moving ≠ size then (fun i => if i.val = moving then lim.round (epsilon / 2) else 0)
    else loop.2)

/-- The function `MeshTools::clean(indices, vertices, epsilon)`, that is
`Implementation::Clean<Vertex, vertexSize>::operator()`, returning the new index
and vertex arrays. `size` is `Vertex::Size`. -/
def clean {size : Nat} {T : Type} [LinearOrderedField T] [FloorRing T]
    (lim : NumericLimits T) (vertexSize : Nat) (hsize : vertexSize ≤ size)
    (indices : List Nat) (vertices : List (Math.Vector size T)) (epsilon : T) :
    List Nat × List (Math.Vector size T) :=
  if indices.isEmpty then (indices, vertices)
  else
    let bounds := meshBounds lim vertexSize hsize vertices
    let epsilon := enlargeEpsilon lim bounds.1 bounds.2 epsilon
    ((List.range (vertexSize + 1)).foldl
      (movingStep lim vertexSize hsize bounds.1 epsilon)
      ((indices, vertices), fun _ => 0)).1

/-- The power `2^k` for an integer `k`. -/
def pow2 (k : ℤ) : ℚ :=
  if 0 ≤ k then ((2 ^ k.toNat : ℕ) : ℚ) else 1 / ((2 ^ (-k).toNat : ℕ) : ℚ)

/-- Rounding of a rational to the nearest integer, a tie going to the even
one. -/
def roundHalfEven (x : ℚ) : ℤ :=
  if x - ⌊x⌋ < 1 / 2 then ⌊x⌋
  else if 1 / 2 < x - ⌊x⌋ then ⌊x⌋ + 1
  else if ⌊x⌋ % 2 = 0 then ⌊x⌋ else ⌊x⌋ + 1

/-- The number of binary digits of `n`, for `fuel ≥ n`. -/
def bitLength : Nat → Nat → Nat
  | 0, _ => 0
  | fuel + 1, n => if n = 0 then 0 else bitLength fuel (n / 2) + 1

/-- The binary exponent of a rational `x ≠ 0`: the greatest `e` with
`2^e ≤ |x|`. It is the difference of the digit counts of numerator and
denominator, or one less. -/
def binaryExponent (x : ℚ) : ℤ :=
  if pow2 ((bitLength x.num.natAbs x.num.natAbs : ℤ) - (bitLength x.den x.den : ℤ)) ≤ |x| then
    (bitLength x.num.natAbs x.num.natAbs : ℤ) - (bitLength x.den x.den : ℤ)
  else (bitLength x.num.natAbs x.num.natAbs : ℤ) - (bitLength x.den x.den : ℤ) - 1

/-- Rounding of a rational to single precision (`Float`): 24 significant binary
digits, least exponent -126 (below it the spacing stays `2^-149`), to the
nearest value, a tie going to the even significand. Values beyond the largest
finite one, which `Float` turns into infinity, are left finite here. -/
def roundFloat (x : ℚ) : ℚ :=
  if x = 0 then 0
  else (roundHalfEven (x / pow2 (max (binaryExponent x) (-126) - 23)) : ℚ)
    * pow2 (max (binaryExponent x) (-126) - 23)

/-- Limits and rounding of a 64-bit build with single-precision scalars
(`Vertex::Type = Float`), as rationals. -/
def floatLimits : NumericLimits ℚ where
  max := (2 ^ 24 - 1) * 2 ^ 104
  min := 1 / 2 ^ 126
  sizeMax := 2 ^ 64 - 1
  round := roundFloat

/-- Three one-dimensional vertices at 0, 1/4 and 1. -/
def exampleVertices : List (Math.Vector 1 ℚ) :=
  [![0], ![1 / 4], ![1]]

end MeshTools
end Magnum

namespace Magnum
namespace MeshTools

/-- The `newIndex` the table holds under a cell (0 when the cell is absent). -/
def lookupNew {vertexSize : Nat} (table : Table vertexSize) (cell : Fin vertexSize → Nat) : Nat :=
  match table.find? (fun entry => decide (entry.1 = cell)) with
  | some entry => entry.2.newIndex
  | none => 0

/-- The state of the loop over `indices` after the entries `done`: the table
numbers its entries in insertion order, stores every vertex under its own cell,
holds no cell twice, and the rewritten entries are the numbers of the cells. -/
structure PassInv {vertexSize : Nat} (cell : Nat → Fin vertexSize → Nat) (done : List Nat)
    (table : Table vertexSize) (out : List Nat) : Prop where
  newIndex_eq : table.map (fun entry => entry.2.newIndex) = List.range table.length
  cell_eq : ∀ entry ∈ table, entry.1 = cell entry.2.oldIndex
  nodup : (table.map Prod.fst).Nodup
  out_eq : out = done.map (fun it => lookupNew table (cell it))
  present : ∀ it ∈ done, cell it ∈ table.map Prod.fst

/-- Two vertices agree in their first `vertexSize` coordinates. -/
def AgreeOn {size : Nat} {T : Type} (vertexSize : Nat) (a b : Math.Vector size T) : Prop :=
  ∀ i : Fin size, i.val < vertexSize → a i = b i

/-- The index entries at positions `p` and `q` refer to vertices that agree in
their first `vertexSize` coordinates. -/
def SameVertex {size : Nat} {T : Type} [Zero T] (vertexSize : Nat) (indices : List Nat)
    (vertices : List (Math.Vector size T)) (p q : Nat) : Prop :=
  ∃ a b, indices[p]? = some a ∧ indices[q]? = some b ∧
    AgreeOn vertexSize (vertices.getD a (fun _ => 0)) (vertices.getD b (fun _ => 0))

end MeshTools
end Magnum

namespace Magnum
namespace MeshTools

/-! ## Definitions: counting distinct positions -/

/-- Four one-dimensional vertices at 5, 5, 7 and 5: three of them are
duplicates of each other. -/
def duplicateVertices : List (Math.Vector 1 ℚ) :=
  [![5], ![5], ![7], ![5]]

end MeshTools
end Magnum

namespace Magnum
namespace MeshTools

/-- The index and vertex arrays of a pass are anchored in the arrays `clean`
was called with: the index array has kept its length, every index is valid,
and every referenced vertex is the vertex some entry referred to before the
call, that entry referring to it now. -/
structure Anchored {size : Nat} {T : Type} (indices : List Nat)
    (vertices : List (Math.Vector size T)) (state : List Nat × List (Math.Vector size T)) :
    Prop where
  length_eq : state.1.length = indices.length
  valid : ∀ it ∈ state.1, it < state.2.length
  anchor : ∀ (j : Nat) (v : Math.Vector size T), j ∈ state.1 → state.2[j]? = some v →
    ∃ (q a : Nat), indices[q]? = some a ∧ vertices[a]? = some v ∧ state.1[q]? = some j

end MeshTools
end Magnum

namespace Magnum
namespace Physics

/-! ## Definitions: `Physics/ShapeGroup.h` -/

namespace Implementation

/-- The enumerator `GroupOperation::RefA`. -/
def RefA : Nat := 0x01

/-- The enumerator `GroupOperation::RefB`. -/
def RefB : Nat := 0x02

/-- The enumerator `GroupOperation::RefAB`. -/
def RefAB : Nat := 0x03

/-- The enumerator `GroupOperation::And`. -/
def And : Nat := 6 <<< 2

/-- The enumerator `GroupOperation::Or`. -/
def Or : Nat := 7 <<< 2

/-- The enumerator `GroupOperation::Not`. -/
def Not : Nat := 8 <<< 2

/-- The enumerator `GroupOperation::FirstObjectOnly`. -/
def FirstObjectOnly : Nat := 9 <<< 2

/-- The enumerator `GroupOperation::AlwaysFalse`. -/
def AlwaysFalse : Nat := 10 <<< 2

/-- The complement `~0x03` of the reference flags in a 32-bit `int`. -/
def notRefAB : Nat := 0xFFFFFFFC

end Implementation

/-- A pointer `AbstractShape<dimensions>*` together with where it came from:
`nullptr`, the address `&a.get()` of an object of the caller, or the result
`new T(a)` of allocating a copy. -/
inductive ShapePointer (Shape : Type) where
  | null : ShapePointer Shape
  | addressOf (object : Shape) : ShapePointer Shape
  | heap (copy : Shape) : ShapePointer Shape
deriving DecidableEq, Repr

/-- The pointer is the address of an object of the caller. -/
def ShapePointer.isReference {Shape : Type} : ShapePointer Shape → Bool
  | ShapePointer.addressOf _ => true
  | _ => false

/-- The class `ShapeGroup<dimensions>`: the members `operation`, `a` and `b`. -/
structure ShapeGroup (Shape : Type) where
  operation : Nat
  a : ShapePointer Shape
  b : ShapePointer Shape
deriving DecidableEq, Repr

/-- The default constructor `ShapeGroup()`. -/
def ShapeGroup.default (Shape : Type) : ShapeGroup Shape :=
  ⟨Implementation.AlwaysFalse, ShapePointer.null, ShapePointer.null⟩

/-- The accessor `ShapeGroup::first()`. -/
def ShapeGroup.first {Shape : Type} (group : ShapeGroup Shape) : ShapePointer Shape :=
  group.a

/-- The accessor `ShapeGroup::second()`. -/
def ShapeGroup.second {Shape : Type} (group : ShapeGroup Shape) : ShapePointer Shape :=
  group.b

/-- The way the operand of `operator!` is passed, one case per overload:
`const T&`, `T&&` and `T&`. -/
inductive NotOperand (Shape : Type) where
  | constRef (a : Shape) : NotOperand Shape
  | rvalue (a : Shape) : NotOperand Shape
  | lvalueRef (a : Shape) : NotOperand Shape

/-- The way an operand of `operator&&` or `operator||` is passed: `const T&`,
`T&&` or `std::reference_wrapper<T>`. -/
inductive Operand (Shape : Type) where
  | constRef (a : Shape) : Operand Shape
  | rvalue (a : Shape) : Operand Shape
  | referenceWrapper (a : Shape) : Operand Shape

/-- The shape an operand denotes. -/
def Operand.shape {Shape : Type} : Operand Shape → Shape
  | Operand.constRef a => a
  | Operand.rvalue a => a
  | Operand.referenceWrapper a => a

/-- The three overloads of `operator!`. -/
def operatorNot {Shape : Type} : NotOperand Shape → ShapeGroup Shape
  | NotOperand.constRef a =>
    ⟨Implementation.Not, ShapePointer.heap a, ShapePointer.null⟩
  | NotOperand.rvalue a =>
    ⟨Implementation.Not, ShapePointer.heap a, ShapePointer.null⟩
  | NotOperand.lvalueRef a =>
    ⟨Implementation.Not ||| Implementation.RefA, ShapePointer.addressOf a, ShapePointer.null⟩

/-- The nine overloads that the macro `op(type, char)` defines, in the order of
the source. -/
def op {Shape : Type} (type : Nat) : Operand Shape → Operand Shape → ShapeGroup Shape
  | Operand.constRef a, Operand.constRef b =>
    ⟨type, ShapePointer.heap a, ShapePointer.heap b⟩
  | Operand.constRef a, Operand.rvalue b =>
    ⟨type, ShapePointer.heap a, ShapePointer.heap b⟩
  | Operand.rvalue a, Operand.constRef b =>
    ⟨type, ShapePointer.heap a, ShapePointer.heap b⟩
  | Operand.rvalue a, Operand.rvalue b =>
    ⟨type, ShapePointer.heap a, ShapePointer.heap b⟩
  | Operand.constRef a, Operand.referenceWrapper b =>
    ⟨type ||| Implementation.RefB, ShapePointer.heap a, ShapePointer.addressOf b⟩
  | Operand.rvalue a, Operand.referenceWrapper b =>
    ⟨type ||| Implementation.RefB, ShapePointer.heap a, ShapePointer.addressOf b⟩
  | Operand.referenceWrapper a, Operand.constRef b =>
    ⟨type ||| Implementation.RefA, ShapePointer.addressOf a, ShapePointer.heap b⟩
  | Operand.referenceWrapper a, Operand.rvalue b =>
    ⟨type ||| Implementation.RefA, ShapePointer.addressOf a, ShapePointer.heap b⟩
  | Operand.referenceWrapper a, Operand.referenceWrapper b =>
    ⟨type ||| Implementation.RefAB, ShapePointer.addressOf a, ShapePointer.addressOf b⟩

/-- The operator `operator&&`, that is `op(And, &&)`. -/
def operatorAnd {Shape : Type} (a b : Operand Shape) : ShapeGroup Shape :=
  op Implementation.And a b

/-- The operator `operator||`, that is `op(Or, ||)`. -/
def operatorOr {Shape : Type} (a b : Operand Shape) : ShapeGroup Shape :=
  op Implementation.Or a b

/-- A child of a group. -/
inductive Side where
  | first : Side
  | second : Side
deriving DecidableEq, Repr

/-- The call `pointer->collides(other)` on a child, given the collision result
of every shape with `other`; a null pointer, which C++ leaves undefined, gives
`false`. -/
def ShapePointer.collides {Shape : Type} (collidesWithOther : Shape → Bool) :
    ShapePointer Shape → Bool
  | ShapePointer.null => false
  | ShapePointer.addressOf object => collidesWithOther object
  | ShapePointer.heap copy => collidesWithOther copy

/-- Modelled from the spec: `ShapeGroup::collides`, which `ShapeGroup.h` only
declares (its body is in `ShapeGroup.cpp`, not among the sources). NOT evaluates
its single child and negates; AND evaluates left, short-circuits to false
without evaluating right if left is false, else returns right's result; OR
evaluates left, short-circuits to true if left is true, else returns right's
result; the pass-through operation evaluates the first child; anything else is
false. The result comes with the list of the children whose collision was
evaluated, in order. -/
def ShapeGroup.collides {Shape : Type} (group : ShapeGroup Shape)
    (collidesWithOther : Shape → Bool) : Bool × List Side :=
  if group.operation &&& Implementation.notRefAB = Implementation.And then
    if group.a.collides collidesWithOther then
      (group.b.collides collidesWithOther, [Side.first, Side.second])
    else (false, [Side.first])
  else if group.operation &&& Implementation.notRefAB = Implementation.Or then
    if group.a.collides collidesWithOther then (true, [Side.first])
    else (group.b.collides collidesWithOther, [Side.first, Side.second])
  else if group.operation &&& Implementation.notRefAB = Implementation.Not then
    (!group.a.collides collidesWithOther, [Side.first])
  else if group.operation &&& Implementation.notRefAB = Implementation.FirstObjectOnly then
    (group.a.collides collidesWithOther, [Side.first])
  else (false, [])

end Physics
end Magnum

namespace Magnum
namespace Physics

/-! ## Definitions: `Physics/Capsule.h` -/

/-- The class `Capsule`: the members `_a`, `_transformedA`, `_b`,
`_transformedB`, `_radius` and `_transformedRadius`. -/
structure Capsule (T : Type) where
  _a : Math.Vector 3 T
  _transformedA : Math.Vector 3 T
  _b : Math.Vector 3 T
  _transformedB : Math.Vector 3 T
  _radius : T
  _transformedRadius : T

/-- The constructor `Capsule(a, b, radius)`. -/
def Capsule.new {T : Type} (a b : Math.Vector 3 T) (radius : T) : Capsule T :=
  ⟨a, a, b, b, radius, radius⟩

/-- The accessor `Capsule::a()`, documented as the start point. -/
def Capsule.a {T : Type} (capsule : Capsule T) : Math.Vector 3 T :=
  capsule._a

/-- The accessor `Capsule::b()`, documented as the end point; its body is
`return _a;`. -/
def Capsule.b {T : Type} (capsule : Capsule T) : Math.Vector 3 T :=
  capsule._a

/-- The setter `Capsule::setA()`. -/
def Capsule.setA {T : Type} (capsule : Capsule T) (a : Math.Vector 3 T) : Capsule T :=
  { capsule with _a := a }

/-- The setter `Capsule::setB()`. -/
def Capsule.setB {T : Type} (capsule : Capsule T) (b : Math.Vector 3 T) : Capsule T :=
  { capsule with _b := b }

end Physics
end Magnum

namespace Magnum
namespace SceneGraph

/-! ## Definitions: the object tree of the specification

The sources hold `SceneGraph/AbstractFeature.h` only; the object tree, its
dirty and clean transitions and reparenting are modelled from the
specification (sections 3 and 4.1 to 4.2). An object is addressed by its path
from the scene root, the list of child positions to follow. -/

/-- Modelled from the spec: the Transformation Strategy of section 4.1, which
the sources do not include: `compose(parentAbsolute, localTransform)`,
`invert(absolute)` and the identity element. -/
structure TransformationStrategy (X : Type) where
  compose : X → X → X
  invert : X → X
  identity : X

/-- Modelled from the spec: the Object Node of section 3, which the sources do
not include: local transform, cached absolute transform (optional), dirty flag
and the ordered list of child nodes, each owned by its parent. -/
inductive Object (X : Type) where
  | mk (transformation : X) (absolute : Option X) (dirty : Bool)
      (children : List (Object X)) : Object X

/-- The local transform of an object. -/
def Object.transformation {X : Type} : Object X → X
  | Object.mk t _ _ _ => t

/-- The cached absolute transform of an object. -/
def Object.absolute {X : Type} : Object X → Option X
  | Object.mk _ a _ _ => a

/-- The dirty flag of an object. -/
def Object.isDirty {X : Type} : Object X → Bool
  | Object.mk _ _ d _ => d

/-- The ordered list of children of an object. -/
def Object.children {X : Type} : Object X → List (Object X)
  | Object.mk _ _ _ cs => cs

/-- The object at a path below `object`, if there is one. -/
def Object.get? {X : Type} : Object X → List Nat → Option (Object X)
  | object, [] => some object
  | object, i :: path =>
    match object.children[i]? with
    | some child => child.get? path
    | none => none

/-- Replace the object at a path by its image under `f`; nothing changes when
the path leads nowhere. -/
def Object.modify {X : Type} (f : Object X → Object X) : Object X → List Nat → Object X
  | object, [] => f object
  | Object.mk t a d cs, i :: path =>
    match cs[i]? with
    | some child => Object.mk t a d (cs.set i (Object.modify f child path))
    | none => Object.mk t a d cs

mutual
/-- Modelled from the spec: the cascading dirty mark of section 4.2, which the
sources do not include. The object becomes Dirty and so do all its
descendants; the cascade stops at an object that is already dirty. -/
def Object.setDirty {X : Type} : Object X → Object X
  | Object.mk t a true cs => Object.mk t a true cs
  | Object.mk t a false cs => Object.mk t a true (Object.setDirtyList cs)
/-- The cascade `Object.setDirty` on every object of a list of children. -/
def Object.setDirtyList {X : Type} : List (Object X) → List (Object X)
  | [] => []
  | child :: cs => Object.setDirty child :: Object.setDirtyList cs
end

mutual
/-- Modelled from the spec: the clean pass of section 4.2 over a subtree, which
the sources do not include, given the absolute transform of the parent. A dirty
object gets `absolute = compose(parent.absolute, local)` and becomes Clean; a
clean object keeps its cache; the pass then descends into the children with
the absolute transform of the object. -/
def Object.clean {X : Type} (strategy : TransformationStrategy X)
    (parentAbsolute : Option X) : Object X → Object X
  | Object.mk t _ true cs =>
    Object.mk t (parentAbsolute.map (fun p => strategy.compose p t)) false
      (Object.cleanList strategy (parentAbsolute.map (fun p => strategy.compose p t)) cs)
  | Object.mk t a false cs => Object.mk t a false (Object.cleanList strategy a cs)
/-- The clean pass `Object.clean` over every object of a list of children. -/
def Object.cleanList {X : Type} (strategy : TransformationStrategy X)
    (parentAbsolute : Option X) : List (Object X) → List (Object X)
  | [] => []
  | child :: cs =>
    Object.clean strategy parentAbsolute child :: Object.cleanList strategy parentAbsolute cs
end

/-- Clean one object alone, given the absolute transform of its parent. -/
def Object.cleanSelf {X : Type} (strategy : TransformationStrategy X)
    (parentAbsolute : Option X) : Object X → Object X
  | Object.mk t _ true cs =>
    Object.mk t (parentAbsolute.map (fun p => strategy.compose p t)) false cs
  | Object.mk t a false cs => Object.mk t a false cs

/-- Modelled from the spec: `clean()` of one object (section 4.2), which the
sources do not include: the ancestors are cleaned before the object, top-down
along the path, each from the absolute transform of its parent. -/
def Object.cleanAlong {X : Type} (strategy : TransformationStrategy X) :
    Option X → Object X → List Nat → Object X
  | parentAbsolute, object, [] => object.cleanSelf strategy parentAbsolute
  | parentAbsolute, object, i :: path =>
    match (object.cleanSelf strategy parentAbsolute).children[i]? with
    | some child =>
      Object.mk (object.cleanSelf strategy parentAbsolute).transformation
        (object.cleanSelf strategy parentAbsolute).absolute
        (object.cleanSelf strategy parentAbsolute).isDirty
        ((object.cleanSelf strategy parentAbsolute).children.set i
          (Object.cleanAlong strategy (object.cleanSelf strategy parentAbsolute).absolute
            child path))
    | none => object.cleanSelf strategy parentAbsolute

/-- The composition of the local transforms along a path below `object`, in
root-to-object order, starting from the absolute transform of the parent of
`object`. -/
def Object.composeAlong {X : Type} (strategy : TransformationStrategy X) :
    X → Object X → List Nat → Option X
  | parentAbsolute, object, [] => some (strategy.compose parentAbsolute object.transformation)
  | parentAbsolute, object, i :: path =>
    match object.children[i]? with
    | some child =>
      Object.composeAlong strategy (strategy.compose parentAbsolute object.transformation)
        child path
    | none => none

/-- The composition of the local transforms along the path from the scene root
to an object, in root-to-object order. The scene itself has the identity. -/
def Scene.composeAlong {X : Type} (strategy : TransformationStrategy X) (root : Object X) :
    List Nat → Option X
  | [] => some strategy.identity
  | i :: path =>
    match root.children[i]? with
    | some child => Object.composeAlong strategy strategy.identity child path
    | none => none

/-- Modelled from the spec: `clean()` run on the whole tree, which the sources
do not include. The scene root is left as it is, its absolute transform is the
identity, and the pass descends into every child. -/
def Scene.clean {X : Type} (strategy : TransformationStrategy X) : Object X → Object X
  | Object.mk t a d cs => Object.mk t a d (Object.cleanList strategy (some strategy.identity) cs)

/-- Modelled from the spec: `clean()` of the object at a path, which the
sources do not include; the scene root itself is left as it is. -/
def Scene.cleanObject {X : Type} (strategy : TransformationStrategy X) (root : Object X) :
    List Nat → Object X
  | [] => root
  | i :: path =>
    match root.children[i]? with
    | some child =>
      Object.mk root.transformation root.absolute root.isDirty
        (root.children.set i (Object.cleanAlong strategy (some strategy.identity) child path))
    | none => root

/-- Modelled from the spec: `setTransformation(newLocal)` of section 4.2 on the
object at a path, which the sources do not include: the local transform is
overwritten and the object is marked Dirty, cascading. The local transform of
the scene root is fixed, so the empty path changes nothing. -/
def Scene.setTransformation {X : Type} (root : Object X) (path : List Nat) (newLocal : X) :
    Object X :=
  match path with
  | [] => root
  | i :: rest =>
    Object.modify
      (fun object =>
        Object.setDirty (Object.mk newLocal object.absolute object.isDirty object.children))
      root (i :: rest)

/-- The errors an operation on the tree reports. -/
inductive SceneError where
  | cycle : SceneError
  | noSuchObject : SceneError
deriving DecidableEq, Repr

/-- Append a child to the children of an object. -/
def Object.addChild {X : Type} (child : Object X) : Object X → Object X
  | Object.mk t a d cs => Object.mk t a d (cs ++ [child])

/-- Remove the child at a position from the children of an object. -/
def Object.removeChild {X : Type} (i : Nat) : Object X → Object X
  | Object.mk t a d cs => Object.mk t a d (cs.eraseIdx i)

/-- Modelled from the spec: `setParent(newParent)` of section 4.2, which the
sources do not include, for the object at path `object` and the new parent at
path `newParent`. A new parent that is the object itself or one of its
descendants (the path of the object starts the path of the new parent) is a
cycle: it is reported and the tree is unchanged. Otherwise the object is
detached from its parent, attached as the last child of the new parent, and
marked Dirty, cascading. The result is the tree after the call and the error
reported, if any. -/
def Scene.setParent {X : Type} (root : Object X) (object newParent : List Nat) :
    Object X × Option SceneError :=
  if object.isPrefixOf newParent then (root, some SceneError.cycle)
  else
    match root.get? object, root.get? newParent with
    | some moved, some _ =>
      (Object.modify (Object.removeChild (object.getLastD 0))
        (Object.modify (Object.addChild (Object.setDirty moved)) root newParent)
        object.dropLast, none)
    | _, _ => (root, some SceneError.noSuchObject)

/-- The operations of section 4.2 on a tree. -/
inductive Operation (X : Type) where
  | setTransformation (path : List Nat) (newLocal : X) : Operation X
  | setParent (object newParent : List Nat) : Operation X
  | cleanObject (path : List Nat) : Operation X
  | clean : Operation X

/-- The tree after an operation. -/
def Scene.apply {X : Type} (strategy : TransformationStrategy X) (root : Object X) :
    Operation X → Object X
  | Operation.setTransformation path newLocal => Scene.setTransformation root path newLocal
  | Operation.setParent object newParent => (Scene.setParent root object newParent).1
  | Operation.cleanObject path => Scene.cleanObject strategy root path
  | Operation.clean => Scene.clean strategy root

mutual
/-- The object and all its descendants are Dirty. -/
def Object.allDirty {X : Type} : Object X → Bool
  | Object.mk _ _ d cs => d && Object.allDirtyList cs
/-- Every object of the list and all its descendants are Dirty. -/
def Object.allDirtyList {X : Type} : List (Object X) → Bool
  | [] => true
  | child :: cs => Object.allDirty child && Object.allDirtyList cs
end

mutual
/-- The invariant of the data model that dirtiness is monotonic downward: below
a dirty object everything is dirty. -/
def Object.dirtyMonotone {X : Type} : Object X → Bool
  | Object.mk _ _ d cs => (!d || Object.allDirtyList cs) && Object.dirtyMonotoneList cs
/-- The invariant `Object.dirtyMonotone` for every object of a list. -/
def Object.dirtyMonotoneList {X : Type} : List (Object X) → Bool
  | [] => true
  | child :: cs => Object.dirtyMonotone child && Object.dirtyMonotoneList cs
end

/-- The invariant of the data model that the absolute transform of a clean
object is valid: every clean object below the scene root caches the composition
of the local transforms along its path. -/
def Scene.CacheValid {X : Type} (strategy : TransformationStrategy X) (root : Object X) :
    Prop :=
  ∀ (path : List Nat) (object : Object X), path ≠ [] → root.get? path = some object →
    object.isDirty = false → object.absolute = Scene.composeAlong strategy root path

/-- Translations of the plane with integer coordinates: composing adds. -/
def translations : TransformationStrategy (Int × Int) where
  compose := fun a b => (a.1 + b.1, a.2 + b.2)
  invert := fun a => (- a.1, - a.2)
  identity := (0, 0)

/-- The chain Root, A, B with the local translations `(1, 0)` and `(0, 1)`,
after A alone was cleaned: A is clean and caches its absolute translation
`(1, 0)`, B is dirty. -/
def exampleScene : Object (Int × Int) :=
  Object.mk (0, 0) (some (0, 0)) false
    [Object.mk (1, 0) (some (1, 0)) false [Object.mk (0, 1) none true []]]

end SceneGraph
end Magnum

namespace Magnum
namespace SceneGraph

/-! ## Definitions: the matrix transformation strategy -/

/-- The strategy of 2D transformation matrices over the rationals: composing is
the matrix product, inverting is `Matrix::inverted()`, the identity is the
default-constructed `Matrix3`. -/
def matrixStrategy : TransformationStrategy (Math.Matrix3 ℚ) where
  compose := Math.Matrix.mul
  invert := fun m => Math.Matrix.inverted m
  identity := Math.Matrix.identity 3 ℚ

/-- The chain Root, A, B with the local transformations `translation(a)` and
`translation(b)`, A and B dirty. -/
def translationChain (a b : Math.Vector 2 ℚ) : Object (Math.Matrix3 ℚ) :=
  Object.mk (Math.Matrix.identity 3 ℚ) (some (Math.Matrix.identity 3 ℚ)) false
    [Object.mk (Math.Matrix3.translationMatrix a) none true
      [Object.mk (Math.Matrix3.translationMatrix b) none true []]]

end SceneGraph
end Magnum

namespace Magnum
namespace SceneGraph

/-! ## Definitions: `SceneGraph/AbstractFeature.h`

The feature list of an object is an ordered sequence, as the specification
describes it; a feature is addressed by its position in the list of its
object, and its sibling links are the neighbouring positions. -/

namespace Implementation

/-- The enumerator `FeatureCachedTransformation::Absolute`. -/
def Absolute : Nat := 1 <<< 0

/-- The enumerator `FeatureCachedTransformation::InvertedAbsolute`. -/
def InvertedAbsolute : Nat := 1 <<< 1

end Implementation

/-- Modelled from the spec: the test `set & flag` of the type
`Corrade::Containers::EnumSet` (not among the sources) on the byte of flags
`CachedTransformations`: the flag is in the set. -/
def CachedTransformations.contains (set flag : Nat) : Bool :=
  decide (set &&& flag ≠ 0)

/-- A call of one of the virtual functions `clean()`, `cleanInverted()` and
`markDirty()` of a feature, with its argument. -/
inductive FeatureCall (X : Type) where
  | clean (absoluteTransformationMatrix : X) : FeatureCall X
  | cleanInverted (invertedAbsoluteTransformationMatrix : X) : FeatureCall X
  | markDirty : FeatureCall X
deriving DecidableEq, Repr

/-- The class `AbstractFeature`: the object holding it (`LinkedListItem::list()`,
null before the feature is inserted), the member `_cachedTransformations`, and
the calls of its virtual functions so far. -/
structure AbstractFeature (X : Type) where
  list : Option Nat
  _cachedTransformations : Nat
  calls : List (FeatureCall X)

/-- The feature list of the class `AbstractObject`
(`LinkedList<AbstractFeature>`), with the identity of the object. -/
structure AbstractObject (X : Type) where
  id : Nat
  features : List (AbstractFeature X)

/-- Modelled from the spec: `LinkedList::insert(item)` of
`Corrade::Containers::LinkedList` (not among the sources): the item is
registered as the last element of the list and the list becomes its holder. -/
def AbstractObject.insert {X : Type} (object : AbstractObject X) (item : AbstractFeature X) :
    AbstractObject X :=
  { object with features := object.features ++ [{ item with list := some object.id }] }

/-- The constructor `AbstractFeature(object)`: the members are
default-constructed (the set `_cachedTransformations` is empty) and the feature
inserts itself into the list of `object`. The result is the object and the
position of the new feature in its list. -/
def AbstractFeature.new {X : Type} (object : AbstractObject X) : AbstractObject X × Nat :=
  (object.insert ⟨none, 0, []⟩, object.features.length)

/-- The accessor `AbstractFeature::object()`. -/
def AbstractFeature.object {X : Type} (feature : AbstractFeature X) : Option Nat :=
  feature.list

/-- The accessor `AbstractFeature::cachedTransformations()`. -/
def AbstractFeature.cachedTransformations {X : Type} (feature : AbstractFeature X) : Nat :=
  feature._cachedTransformations

/-- The setter `AbstractFeature::setCachedTransformations()`. -/
def AbstractFeature.setCachedTransformations {X : Type} (feature : AbstractFeature X)
    (transformations : Nat) : AbstractFeature X :=
  { feature with _cachedTransformations := transformations }

/-- The accessor `AbstractFeature::previousFeature()` of the feature at a
position: the position before it, or null for the first feature. -/
def AbstractObject.previousFeature {X : Type} (object : AbstractObject X) (position : Nat) :
    Option Nat :=
  if 0 < position ∧ position < object.features.length then some (position - 1) else none

/-- The accessor `AbstractFeature::nextFeature()` of the feature at a position:
the position after it, or null for the last feature. -/
def AbstractObject.nextFeature {X : Type} (object : AbstractObject X) (position : Nat) :
    Option Nat :=
  if position + 1 < object.features.length then some (position + 1) else none

/-- The call `setCachedTransformations(transformations)` on the feature at a
position of the list of an object. -/
def AbstractObject.setCachedTransformations {X : Type} (object : AbstractObject X)
    (position : Nat) (transformations : Nat) : AbstractObject X :=
  match object.features[position]? with
  | some feature =>
    { object with
      features := object.features.set position
        (feature.setCachedTransformations transformations) }
  | none => object

/-- Modelled from the spec: what cleaning an object does to one attached
feature (section 4.2; the code is in `Object.hpp`, not among the sources):
`clean()` is called with the absolute transformation if
`CachedTransformation::Absolute` is enabled, then `cleanInverted()` with the
inverted absolute transformation if `CachedTransformation::InvertedAbsolute` is
enabled. -/
def AbstractFeature.cleanedBy {X : Type} (absolute invertedAbsolute : X)
    (feature : AbstractFeature X) : AbstractFeature X :=
  { feature with
    calls := feature.calls
      ++ (if CachedTransformations.contains feature.cachedTransformations
            Implementation.Absolute then
          [FeatureCall.clean absolute] else [])
      ++ (if CachedTransformations.contains feature.cachedTransformations
            Implementation.InvertedAbsolute then
          [FeatureCall.cleanInverted invertedAbsolute] else []) }

/-- Modelled from the spec: the feature part of cleaning an object with a
newly computed absolute transformation (section 4.2; the code is in
`Object.hpp`, not among the sources): every attached feature, in the order of
the list, gets the callbacks for the kinds it requested. -/
def AbstractObject.setClean {X : Type} (strategy : TransformationStrategy X)
    (object : AbstractObject X) (absolute : X) : AbstractObject X :=
  { object with
    features := object.features.map
      (AbstractFeature.cleanedBy absolute (strategy.invert absolute)) }

/-- An object with three features: one with nothing enabled, one requesting
only the inverted absolute transformation, one requesting both. -/
def exampleFeatures : AbstractObject (Int × Int) where
  id := 7
  features :=
    [⟨some 7, 0, []⟩,
     ⟨some 7, Implementation.InvertedAbsolute, []⟩,
     ⟨some 7, Implementation.Absolute ||| Implementation.InvertedAbsolute, []⟩]

end SceneGraph
end Magnum

namespace Magnum
namespace Math

/-! ## Theorems: determinant and inverse -/

theorem foldl_add_finRange {T : Type} [AddCommMonoid T] (n : Nat) (f : Fin n → T) :
    (List.finRange n).foldl (fun out col => out + f col) 0 = ∑ col : Fin n, f col := by
  rw [Fin.sum_univ_def, List.sum_eq_foldl, List.foldl_map]

theorem sign_eq_pow {T : Type} [Field T] (k : Nat) :
    (if k &&& 1 ≠ 0 then (-1 : T) else 1) = (-1) ^ k := by
  rw [Nat.and_one_is_mod]
  rcases Nat.even_or_odd k with h | h
  · rw [Nat.even_iff.mp h, h.neg_one_pow]; simp
  · rw [Nat.odd_iff.mp h, h.neg_one_pow]; simp

theorem ij_toMatrix {size : Nat} {T : Type} (m : Matrix (size + 1) T)
    (skipCol skipRow : Fin (size + 1)) :
    (m.ij skipCol.val skipRow.val).toMatrix
      = (m.toMatrix).submatrix skipRow.succAbove skipCol.succAbove := by
  ext row col
  simp only [Matrix.toMatrix, Matrix.ij, Matrix.of_apply, Matrix.submatrix_apply]
  congr 1 <;>
  · ext
    simp only [Fin.succAbove, Fin.lt_def, Fin.coe_castSucc]
    split <;> split <;> simp <;> omega

theorem determinant_eq_det {T : Type} [Field T] :
    ∀ (size : Nat) (m : Matrix (size + 1) T), m.determinant = (m.toMatrix).det
  | 0, m => by
    simp [Matrix.determinant, Implementation.MatrixDeterminant, Matrix.toMatrix, Matrix.det_unique]
  | 1, m => by
    simp [Matrix.determinant, Implementation.MatrixDeterminant, Matrix.toMatrix, Matrix.det_fin_two]
  | size + 2, m => by
    have ih := determinant_eq_det (T := T) (size + 1)
    simp only [Matrix.determinant] at ih ⊢
    rw [Implementation.MatrixDeterminant, foldl_add_finRange, Matrix.det_succ_row_zero]
    refine Finset.sum_congr rfl (fun col _ => ?_)
    rw [sign_eq_pow, ih, ← Fin.val_zero (size + 2 + 1), ij_toMatrix]
    simp [Matrix.toMatrix]

theorem toMatrix_injective {size : Nat} {T : Type} (a b : Matrix size T)
    (h : a.toMatrix = b.toMatrix) : a = b := by
  funext col row
  have := congrFun (congrFun h row) col
  simpa [Matrix.toMatrix] using this

theorem toMatrix_mul {size : Nat} {T : Type} [Field T] (a b : Matrix size T) :
    (a.mul b).toMatrix = a.toMatrix * b.toMatrix := by
  ext row col
  simp [Matrix.toMatrix, Matrix.mul, Matrix.mul_apply]

theorem toMatrix_identity {size : Nat} {T : Type} [Field T] :
    (Matrix.identity size T).toMatrix = 1 := by
  ext row col
  simp [Matrix.toMatrix, Matrix.identity, Matrix.one_apply, eq_comm]

theorem toMatrix_inverted {size : Nat} {T : Type} [Field T] (m : Matrix (size + 2) T) :
    m.inverted.toMatrix = (m.determinant)⁻¹ • (m.toMatrix).adjugate := by
  ext row col
  simp only [Matrix.toMatrix, Matrix.inverted, Matrix.of_apply, Matrix.smul_apply, smul_eq_mul]
  rw [Matrix.adjugate_fin_succ_eq_det_submatrix, sign_eq_pow, determinant_eq_det,
    ij_toMatrix]
  simp only [Matrix.toMatrix]
  rw [add_comm row.val col.val, div_eq_mul_inv]
  ring

theorem inverted_is_right_inverse {T : Type} [Field T] (size : Nat) (A : Matrix (size + 2) T)
    (h : A.determinant ≠ 0) : A.mul A.inverted = Matrix.identity (size + 2) T := by
  have hdet : (A.toMatrix).det ≠ 0 := by rwa [← determinant_eq_det]
  apply toMatrix_injective
  rw [toMatrix_mul, toMatrix_identity, toMatrix_inverted, determinant_eq_det,
    Matrix.mul_smul, Matrix.mul_adjugate, smul_smul, inv_mul_cancel₀ hdet, one_smul]

theorem inverted_is_left_inverse {T : Type} [Field T] (size : Nat) (A : Matrix (size + 2) T)
    (h : A.determinant ≠ 0) : A.inverted.mul A = Matrix.identity (size + 2) T := by
  have hdet : (A.toMatrix).det ≠ 0 := by rwa [← determinant_eq_det]
  apply toMatrix_injective
  rw [toMatrix_mul, toMatrix_identity, toMatrix_inverted, determinant_eq_det,
    Matrix.smul_mul, Matrix.adjugate_mul, smul_smul, inv_mul_cancel₀ hdet, one_smul]

/-- C3: `determinant()` is the mathematical determinant. For every size from 2
on it equals the determinant of the matrix with the same entries, it satisfies
Laplace's formula along every row `i` (the sum over `j` of
`(-1)^(i+j) * a(i,j) * det(A without row i and column j)`), and on a 2x2 matrix
it is `a00*a11 - a10*a01`. -/
theorem determinant_laplace {T : Type} [Field T] :
    (∀ (size : Nat) (m : Matrix (size + 2) T),
        m.determinant = (m.toMatrix).det ∧
        ∀ i : Fin (size + 2), m.determinant
          = ∑ j : Fin (size + 2),
              (-1) ^ (i.val + j.val) * m j i * (m.ij j.val i.val).determinant) ∧
    (∀ m : Matrix 2 T, m.determinant = m 0 0 * m 1 1 - m 1 0 * m 0 1) := by
  refine ⟨fun size m => ⟨determinant_eq_det _ m, fun i => ?_⟩, fun m => rfl⟩
  rw [determinant_eq_det, Matrix.det_succ_row _ i]
  refine Finset.sum_congr rfl (fun j _ => ?_)
  rw [determinant_eq_det, ij_toMatrix]
  simp [Matrix.toMatrix]

/-- C1: for every square matrix `A` of size at least 2 over a field with
`A.determinant() != 0`, both `A * A.inverted()` and `A.inverted() * A` are the
identity matrix. -/
theorem mul_inverted {T : Type} [Field T] (size : Nat) (A : Matrix (size + 2) T)
    (h : A.determinant ≠ 0) :
    A.mul A.inverted = Matrix.identity (size + 2) T ∧
    A.inverted.mul A = Matrix.identity (size + 2) T :=
  ⟨inverted_is_right_inverse size A h, inverted_is_left_inverse size A h⟩

/-- Witness for C1: a 3x3 rational matrix with determinant 8. -/
theorem mul_inverted_witness :
    (Matrix.determinant (T := ℚ) ![![2, 0, 0], ![0, 4, 0], ![1, 1, 1]] ≠ 0) ∧
    (Matrix.mul (T := ℚ) ![![2, 0, 0], ![0, 4, 0], ![1, 1, 1]]
        (Matrix.inverted ![![2, 0, 0], ![0, 4, 0], ![1, 1, 1]]) = Matrix.identity 3 ℚ ∧
      Matrix.mul (T := ℚ) (Matrix.inverted ![![2, 0, 0], ![0, 4, 0], ![1, 1, 1]])
        ![![2, 0, 0], ![0, 4, 0], ![1, 1, 1]] = Matrix.identity 3 ℚ) :=
  have h : Matrix.determinant (T := ℚ) ![![2, 0, 0], ![0, 4, 0], ![1, 1, 1]] ≠ 0 := by
    simp [Matrix.determinant, Implementation.MatrixDeterminant, Matrix.ij, List.finRange,
      List.ofFn, Fin.foldr, Fin.foldr.loop]
  ⟨h, mul_inverted 1 _ h⟩

theorem eq_inverted_of_mul_eq_identity {T : Type} [Field T] (size : Nat)
    (A X : Matrix (size + 2) T) (h : A.mul X = Matrix.identity (size + 2) T) :
    A.determinant ≠ 0 ∧ X = A.inverted := by
  have h1 : A.toMatrix * X.toMatrix = 1 := by
    rw [← toMatrix_mul, h, toMatrix_identity]
  have hdet : A.determinant ≠ 0 := by
    rw [determinant_eq_det]
    exact (Matrix.isUnit_det_of_right_inverse h1).ne_zero
  refine ⟨hdet, toMatrix_injective _ _ ?_⟩
  have h2 : A.inverted.toMatrix * A.toMatrix = 1 := by
    rw [← toMatrix_mul, inverted_is_left_inverse size A hdet, toMatrix_identity]
  calc X.toMatrix = (A.inverted.toMatrix * A.toMatrix) * X.toMatrix := by rw [h2, one_mul]
    _ = A.inverted.toMatrix := by rw [mul_assoc, h1, mul_one]

theorem isRigidTransformation_of_exact {T : Type} [LinearOrderedField T] (tr : TypeTraits T)
    (M : Matrix3 T) (hepsilon : 0 ≤ tr.epsilon) (hequals : ∀ x : T, tr.equals x x = true)
    (hnormalized : ∀ v : Vector 2 T, Vector.dot v v = 1 → tr.isNormalized 2 v = true)
    (hrow : Matrix.row M 2 = ![0, 0, 1])
    (hrot : (Matrix3.rotationScaling M).transposed.mul (Matrix3.rotationScaling M)
      = Matrix.identity 2 T) :
    Matrix3.isRigidTransformation tr M = true := by
  have h00 := congrFun (congrFun hrot 0) 0
  have h01 := congrFun (congrFun hrot 0) 1
  have h11 := congrFun (congrFun hrot 1) 1
  simp [Matrix.mul, Matrix.transposed, Matrix3.rotationScaling, Matrix.identity,
    Fin.sum_univ_two] at h00 h01 h11
  simp only [Matrix3.isRigidTransformation, Bool.and_eq_true]
  constructor
  · simp only [Matrix.isOrthogonal, Bool.and_eq_true, List.all_eq_true, List.mem_finRange,
      forall_true_left, Bool.not_eq_true', Bool.and_eq_false_imp, decide_eq_true_eq,
      decide_eq_false_iff_not, not_lt]
    constructor
    · intro i
      apply hnormalized
      fin_cases i <;> simp [Vector.dot, Matrix3.rotationScaling, Fin.sum_univ_two] <;>
        linarith
    · intro i j hij
      fin_cases i <;> fin_cases j <;> simp at hij
      simp [Vector.dot, Matrix3.rotationScaling, Fin.sum_univ_two]
      linarith
  · rw [hrow]
    simp [Vector.eq, hequals]

theorem rigid_candidate_mul {T : Type} [Field T] (M : Matrix3 T)
    (hrow : Matrix.row M 2 = ![0, 0, 1])
    (hrot : (Matrix3.rotationScaling M).transposed.mul (Matrix3.rotationScaling M)
      = Matrix.identity 2 T) :
    Matrix.mul (Matrix3.from (Matrix3.rotationScaling M).transposed
      ((Matrix3.rotationScaling M).transposed.mulVec (Vector.neg (Matrix3.translation M)))) M
      = Matrix.identity 3 T := by
  have h00 := congrFun (congrFun hrot 0) 0
  have h01 := congrFun (congrFun hrot 0) 1
  have h10 := congrFun (congrFun hrot 1) 0
  have h11 := congrFun (congrFun hrot 1) 1
  have r0 := congrFun hrow 0
  have r1 := congrFun hrow 1
  have r2 := congrFun hrow 2
  simp [Matrix.mul, Matrix.transposed, Matrix3.rotationScaling, Matrix.identity,
    Fin.sum_univ_two] at h00 h01 h10 h11
  simp [Matrix.row] at r0 r1 r2
  funext col row
  fin_cases col <;> fin_cases row <;>
    simp [Matrix.mul, Matrix.transposed, Matrix3.rotationScaling, Matrix.identity,
      Matrix3.from, Matrix.mulVec, Vector.neg, Matrix3.translation, Fin.sum_univ_two,
      Fin.sum_univ_three, r0, r1, r2]
  all_goals first
    | linear_combination h00
    | linear_combination h01
    | linear_combination h10
    | linear_combination h11
    | ring

/-- C2: for every `Matrix3` that is exactly a rigid transformation (bottom row
`(0, 0, 1)` and upper-left 2x2 part `R` with `R^T R` the identity),
`invertedRigid()` passes its assertion and returns the same matrix as the
general `inverted()`, and `M * M.invertedRigid()` is the identity. The traits
are any with a non-negative `epsilon`, a reflexive `equals` and an
`isNormalized` that accepts vectors of squared length exactly 1. -/
theorem invertedRigid_eq_inverted {T : Type} [LinearOrderedField T] (tr : TypeTraits T)
    (M : Matrix3 T) (hepsilon : 0 ≤ tr.epsilon) (hequals : ∀ x : T, tr.equals x x = true)
    (hnormalized : ∀ v : Vector 2 T, Vector.dot v v = 1 → tr.isNormalized 2 v = true)
    (hrow : Matrix.row M 2 = ![0, 0, 1])
    (hrot : (Matrix3.rotationScaling M).transposed.mul (Matrix3.rotationScaling M)
      = Matrix.identity 2 T) :
    ∃ r : Matrix3 T, Matrix3.invertedRigid tr M = some r ∧ r = Matrix.inverted M ∧
      Matrix.mul M r = Matrix.identity 3 T := by
  have hleft := rigid_candidate_mul M hrow hrot
  have hright : Matrix.mul M (Matrix3.from (Matrix3.rotationScaling M).transposed
      ((Matrix3.rotationScaling M).transposed.mulVec (Vector.neg (Matrix3.translation M))))
      = Matrix.identity 3 T := by
    apply toMatrix_injective
    have h := congrArg Matrix.toMatrix hleft
    rw [toMatrix_mul, toMatrix_identity] at h
    rw [toMatrix_mul, toMatrix_identity]
    exact Matrix.mul_eq_one_comm.mp h
  refine ⟨_, ?_, (eq_inverted_of_mul_eq_identity 1 M _ hright).2, hright⟩
  simp [Matrix3.invertedRigid,
    isRigidTransformation_of_exact tr M hepsilon hequals hnormalized hrow hrot]

/-- Witness for C2: the quarter turn with translation `(3, 4)` over the
rationals. -/
theorem invertedRigid_eq_inverted_witness :
    (Matrix.row quarterTurn 2 = ![0, 0, 1] ∧
      (Matrix3.rotationScaling quarterTurn).transposed.mul
        (Matrix3.rotationScaling quarterTurn) = Matrix.identity 2 ℚ) ∧
    ∃ r : Matrix3 ℚ, Matrix3.invertedRigid exactTraits quarterTurn = some r ∧
      r = Matrix.inverted quarterTurn ∧ Matrix.mul quarterTurn r = Matrix.identity 3 ℚ :=
  have hrow : Matrix.row quarterTurn 2 = ![0, 0, 1] := by
    funext col
    fin_cases col <;> simp [Matrix.row, quarterTurn]
  have hrot : (Matrix3.rotationScaling quarterTurn).transposed.mul
      (Matrix3.rotationScaling quarterTurn) = Matrix.identity 2 ℚ := by
    funext col row
    fin_cases col <;> fin_cases row <;>
      simp [Matrix.mul, Matrix.transposed, Matrix3.rotationScaling, Matrix.identity,
        quarterTurn, Fin.sum_univ_two]
  ⟨⟨hrow, hrot⟩, invertedRigid_eq_inverted exactTraits quarterTurn (le_refl _)
    (fun x => by simp [exactTraits]) (fun v hv => by simp [exactTraits, hv]) hrow hrot⟩

end Math
end Magnum

namespace Magnum
namespace Math

/-! ## Theorems: orthogonal matrices and 2D transformations -/

/-- C16: `isOrthogonal()` accepts a matrix whose columns are far from
orthogonal. The columns `(1, 0)` and `(-1, 0)` are normalized and their dot
product is -1; the test `dot > epsilon` does not fire, so `isOrthogonal()`
returns true although the absolute value of the dot product exceeds `epsilon`
and the matrix has determinant 0. -/
theorem isOrthogonal_accepts_opposite_columns :
    Matrix.isOrthogonal exactTraits oppositeColumns = true ∧
    |Vector.dot (oppositeColumns 0) (oppositeColumns 1)| > exactTraits.epsilon ∧
    Matrix.determinant oppositeColumns = 0 := by
  refine ⟨by decide!, by decide!, by decide!⟩

/-- C19: for every 2x2 matrix `R` and vector `t`, `Matrix3::from(R, t)` has
rotation and scaling part `R`, translation part `t` and bottom row
`(0, 0, 1)`. -/
theorem from_parts {T : Type} [Field T] (R : Matrix 2 T) (t : Vector 2 T) :
    Matrix3.rotationScaling (Matrix3.from R t) = R ∧
    Matrix3.translation (Matrix3.from R t) = t ∧
    Matrix.row (Matrix3.from R t) 2 = ![0, 0, 1] := by
  refine ⟨?_, ?_, ?_⟩
  · funext col row
    fin_cases col <;> fin_cases row <;> rfl
  · funext i
    fin_cases i <;> rfl
  · funext col
    fin_cases col <;> rfl

/-- C18: for every `Matrix3` `M` and vector `v`, `M.transformVector(v)` is
`M.rotationScaling() * v`, without the translation, and `M.transformPoint(v)`
is `M.transformVector(v) + M.translation()`. -/
theorem transformVector_transformPoint {T : Type} [Field T] (M : Matrix3 T)
    (v : Vector 2 T) :
    Matrix3.transformVector M v = Matrix.mulVec (Matrix3.rotationScaling M) v ∧
    Matrix3.transformPoint M v
      = Vector.add (Matrix3.transformVector M v) (Matrix3.translation M) := by
  constructor
  · funext i
    fin_cases i <;>
      simp [Matrix3.transformVector, Vector3.xy, Vector3.fromXY, Matrix.mulVec,
        Matrix3.rotationScaling, Fin.sum_univ_two, Fin.sum_univ_three]
  · funext i
    fin_cases i <;>
      simp [Matrix3.transformPoint, Matrix3.transformVector, Vector3.xy, Vector3.fromXY,
        Matrix.mulVec, Matrix3.translation, Vector.add, Fin.sum_univ_three]

theorem dot_columns_of_orthogonal {size : Nat} {T : Type} [Field T] (Q : Matrix size T)
    (hQ : Q.transposed.mul Q = Matrix.identity size T) (i j : Fin size) :
    Vector.dot (Q i) (Q j) = if j = i then 1 else 0 := by
  have h := congrFun (congrFun hQ j) i
  simpa [Matrix.mul, Matrix.transposed, Matrix.identity, Vector.dot] using h

theorem isOrthogonal_of_exact {size : Nat} {T : Type} [LinearOrderedField T]
    (tr : TypeTraits T) (Q : Matrix size T) (hepsilon : 0 ≤ tr.epsilon)
    (hnormalized : ∀ v : Vector size T, Vector.dot v v = 1 → tr.isNormalized size v = true)
    (hQ : Q.transposed.mul Q = Matrix.identity size T) :
    Q.isOrthogonal tr = true := by
  have hdot := dot_columns_of_orthogonal Q hQ
  simp only [Matrix.isOrthogonal, Bool.and_eq_true, List.all_eq_true, List.mem_finRange,
    forall_true_left, Bool.not_eq_true', Bool.and_eq_false_imp, decide_eq_true_eq,
    decide_eq_false_iff_not, not_lt]
  constructor
  · intro i
    exact hnormalized _ (by rw [hdot]; simp)
  · intro i j hij
    rw [hdot, if_neg (ne_of_gt hij)]
    exact hepsilon

/-- C17: for every exactly orthogonal matrix `Q` (`Q^T Q` is the identity, over
exact scalars) of size at least 2, `Q.invertedOrthogonal()` passes its
assertion and returns `Q.transposed()`, which equals the general
`Q.inverted()`. The traits are any with a non-negative `epsilon` and an
`isNormalized` that accepts vectors of squared length exactly 1. -/
theorem invertedOrthogonal_eq_inverted {T : Type} [LinearOrderedField T] (tr : TypeTraits T)
    (size : Nat) (Q : Matrix (size + 2) T) (hepsilon : 0 ≤ tr.epsilon)
    (hnormalized : ∀ v : Vector (size + 2) T, Vector.dot v v = 1 →
      tr.isNormalized (size + 2) v = true)
    (hQ : Q.transposed.mul Q = Matrix.identity (size + 2) T) :
    Q.invertedOrthogonal tr = some Q.transposed ∧ Q.transposed = Q.inverted := by
  constructor
  · simp [Matrix.invertedOrthogonal, isOrthogonal_of_exact tr Q hepsilon hnormalized hQ]
  · have hright : Q.mul Q.transposed = Matrix.identity (size + 2) T := by
      apply toMatrix_injective
      have h := congrArg Matrix.toMatrix hQ
      rw [toMatrix_mul, toMatrix_identity] at h
      rw [toMatrix_mul, toMatrix_identity]
      exact Matrix.mul_eq_one_comm.mp h
    exact (eq_inverted_of_mul_eq_identity size Q _ hright).2

/-- Witness for C17: the quarter turn of the plane over the rationals. -/
theorem invertedOrthogonal_eq_inverted_witness :
    quarterTurn2.transposed.mul quarterTurn2 = Matrix.identity 2 ℚ ∧
    (Matrix.invertedOrthogonal exactTraits quarterTurn2 = some quarterTurn2.transposed ∧
      quarterTurn2.transposed = Matrix.inverted quarterTurn2) :=
  have hQ : quarterTurn2.transposed.mul quarterTurn2 = Matrix.identity 2 ℚ := by
    funext col row
    fin_cases col <;> fin_cases row <;>
      simp [Matrix.mul, Matrix.transposed, Matrix.identity, quarterTurn2, Fin.sum_univ_two]
  ⟨hQ, invertedOrthogonal_eq_inverted exactTraits 0 quarterTurn2 (le_refl _)
    (fun v hv => by simp [exactTraits, hv]) hQ⟩

theorem identity_mul {size : Nat} {T : Type} [Field T] (m : Matrix size T) :
    (Matrix.identity size T).mul m = m := by
  apply toMatrix_injective
  rw [toMatrix_mul, toMatrix_identity, one_mul]

theorem mul_identity {size : Nat} {T : Type} [Field T] (m : Matrix size T) :
    m.mul (Matrix.identity size T) = m := by
  apply toMatrix_injective
  rw [toMatrix_mul, toMatrix_identity, mul_one]

theorem translationMatrix_mul {T : Type} [Field T] (a b : Vector 2 T) :
    (Matrix3.translationMatrix a).mul (Matrix3.translationMatrix b)
      = Matrix3.translationMatrix (Vector.add a b) := by
  funext col row
  fin_cases col <;> fin_cases row <;>
    simp [Matrix.mul, Matrix3.translationMatrix, Vector.add, Fin.sum_univ_three, add_comm]

theorem translation_translationMatrix {T : Type} [Field T] (a : Vector 2 T) :
    Matrix3.translation (Matrix3.translationMatrix a) = a := by
  funext i
  fin_cases i <;> rfl

end Math
end Magnum

namespace Magnum
namespace Math

/-! ## Theorems: identity element and round trips of the matrix strategy -/

theorem Matrix3.identity_one_eq {T : Type} [Field T] :
    Matrix3.identity (1 : T) = Matrix.identity 3 T := by
  funext col row
  fin_cases col <;> fin_cases row <;> rfl

/-- C21: the default-constructed `Matrix3` is the identity element of
composition. It has ones on the diagonal and zeros elsewhere, it is the matrix
that the constructor `Matrix(IdentityType)` of `Matrix<3, T>` builds, and for
every `Matrix3` `M` both `Matrix3() * M` and `M * Matrix3()` are `M`. -/
theorem Matrix3.identity_is_neutral {T : Type} [Field T] :
    (∀ col row : Fin 3, Matrix3.identity (1 : T) col row = if col = row then 1 else 0) ∧
    Matrix3.identity (1 : T) = Matrix.identity 3 T ∧
    (∀ M : Matrix3 T,
      Matrix.mul (Matrix3.identity 1) M = M ∧ Matrix.mul M (Matrix3.identity 1) = M) := by
  refine ⟨?_, Matrix3.identity_one_eq, ?_⟩
  · intro col row
    fin_cases col <;> fin_cases row <;> rfl
  · intro M
    rw [Matrix3.identity_one_eq]
    exact ⟨identity_mul M, mul_identity M⟩

theorem toMatrix_inverted_eq_inv {size : Nat} {T : Type} [Field T] (A : Matrix (size + 2) T) :
    A.inverted.toMatrix = (A.toMatrix)⁻¹ := by
  rw [toMatrix_inverted, determinant_eq_det, Matrix.inv_def, Ring.inverse_eq_inv']

theorem determinant_mul_ne_zero {size : Nat} {T : Type} [Field T] (P L : Matrix (size + 2) T)
    (hP : P.determinant ≠ 0) (hL : L.determinant ≠ 0) : (P.mul L).determinant ≠ 0 := by
  rw [determinant_eq_det] at hP hL ⊢
  rw [toMatrix_mul, Matrix.det_mul]
  exact mul_ne_zero hP hL

theorem toMatrix_eq_iff {size : Nat} {T : Type} (a b : Matrix size T) :
    a = b ↔ a.toMatrix = b.toMatrix :=
  ⟨fun h => by rw [h], toMatrix_injective a b⟩

/-- C22, amended: for all invertible matrices `P` (parentAbsolute) and `L`
(local) of size at least 2 over a field, with compose the matrix product and
invert `inverted()`: `compose(invert(compose(P, L)), L)` is
`compose(compose(invert(L), invert(P)), L)`, which reconstructs `P` exactly
when `compose(compose(P, L), P)` is `L`; what holds for all such `P` and `L` is
that `compose(L, invert(compose(P, L)))` is `invert(P)`. -/
theorem roundTrip_law {T : Type} [Field T] (size : Nat) (P L : Matrix (size + 2) T)
    (hP : P.determinant ≠ 0) (hL : L.determinant ≠ 0) :
    (P.mul L).inverted.mul L = (L.inverted.mul P.inverted).mul L ∧
    ((P.mul L).inverted.mul L = P ↔ (P.mul L).mul P = L) ∧
    L.mul (P.mul L).inverted = P.inverted := by
  have hp : IsUnit (P.toMatrix).det := by
    rw [← determinant_eq_det]; exact isUnit_iff_ne_zero.mpr hP
  have hl : IsUnit (L.toMatrix).det := by
    rw [← determinant_eq_det]; exact isUnit_iff_ne_zero.mpr hL
  have hpl : IsUnit (P.toMatrix * L.toMatrix).det := by
    rw [Matrix.det_mul]; exact hp.mul hl
  refine ⟨?_, ?_, ?_⟩
  · apply toMatrix_injective
    simp only [toMatrix_mul, toMatrix_inverted_eq_inv, Matrix.mul_inv_rev]
  · rw [toMatrix_eq_iff, toMatrix_eq_iff ((P.mul L).mul P)]
    simp only [toMatrix_mul, toMatrix_inverted_eq_inv]
    constructor
    · intro h
      calc P.toMatrix * L.toMatrix * P.toMatrix
          = P.toMatrix * L.toMatrix * ((P.toMatrix * L.toMatrix)⁻¹ * L.toMatrix) := by rw [h]
        _ = (P.toMatrix * L.toMatrix * (P.toMatrix * L.toMatrix)⁻¹) * L.toMatrix := by
            rw [mul_assoc (P.toMatrix * L.toMatrix)]
        _ = L.toMatrix := by rw [Matrix.mul_nonsing_inv _ hpl, one_mul]
    · intro h
      calc (P.toMatrix * L.toMatrix)⁻¹ * L.toMatrix
          = (P.toMatrix * L.toMatrix)⁻¹ * (P.toMatrix * L.toMatrix * P.toMatrix) := by rw [h]
        _ = ((P.toMatrix * L.toMatrix)⁻¹ * (P.toMatrix * L.toMatrix)) * P.toMatrix := by
            rw [mul_assoc ((P.toMatrix * L.toMatrix)⁻¹)]
        _ = P.toMatrix := by rw [Matrix.nonsing_inv_mul _ hpl, one_mul]
  · apply toMatrix_injective
    simp only [toMatrix_mul, toMatrix_inverted_eq_inv, Matrix.mul_inv_rev]
    rw [← mul_assoc, Matrix.mul_nonsing_inv _ hl, one_mul]

/-- Witness for C22, amended: the quarter turn with translation and the
scaling by 2, two invertible matrices over the rationals. -/
theorem roundTrip_law_witness :
    (Matrix.determinant quarterTurn ≠ 0 ∧ Matrix.determinant doubling ≠ 0) ∧
    ((quarterTurn.mul doubling).inverted.mul doubling
        = (doubling.inverted.mul quarterTurn.inverted).mul doubling ∧
      ((quarterTurn.mul doubling).inverted.mul doubling = quarterTurn ↔
        (quarterTurn.mul doubling).mul quarterTurn = doubling) ∧
      doubling.mul (quarterTurn.mul doubling).inverted = quarterTurn.inverted) :=
  ⟨⟨by decide!, by decide!⟩, roundTrip_law 1 quarterTurn doubling (by decide!) (by decide!)⟩

end Math
end Magnum

namespace Magnum
namespace MeshTools

/-! ## Theorems: `MeshTools::clean` -/

theorem lookupNew_append_of_mem {vertexSize : Nat} (table : Table vertexSize)
    (entry : (Fin vertexSize → Nat) × HashedVertex) (cell : Fin vertexSize → Nat)
    (h : cell ∈ table.map Prod.fst) :
    lookupNew (table ++ [entry]) cell = lookupNew table cell := by
  obtain ⟨e, he, hk⟩ := List.mem_map.mp h
  have hsome : (table.find? (fun entry => decide (entry.1 = cell))).isSome := by
    rw [List.find?_isSome]
    exact ⟨e, he, by simp [hk]⟩
  obtain ⟨x, hx⟩ := Option.isSome_iff_exists.mp hsome
  simp [lookupNew, List.find?_append, hx]

theorem passInv_nil {vertexSize : Nat} (cell : Nat → Fin vertexSize → Nat) :
    PassInv cell [] [] [] :=
  ⟨rfl, by simp, by simp, rfl, by simp⟩

theorem passInv_step {vertexSize : Nat} (cell : Nat → Fin vertexSize → Nat)
    (done : List Nat) (table : Table vertexSize) (out : List Nat) (it : Nat)
    (h : PassInv cell done table out) :
    PassInv cell (done ++ [it]) (insertVertex cell (table, out) it).1
      (insertVertex cell (table, out) it).2 := by
  unfold insertVertex
  cases hfind : table.find? (fun entry => decide (entry.1 = cell it)) with
  | some entry =>
    have hmem := List.mem_of_find?_eq_some hfind
    have hkey : entry.1 = cell it := by simpa using List.find?_some hfind
    refine ⟨h.newIndex_eq, h.cell_eq, h.nodup, ?_, ?_⟩
    · simp [h.out_eq, lookupNew, hfind]
    · intro it2 hit2
      rcases List.mem_append.mp hit2 with h2 | h2
      · exact h.present it2 h2
      · rw [List.mem_singleton.mp h2, ← hkey]
        exact List.mem_map_of_mem _ hmem
  | none =>
    have hnot : cell it ∉ table.map Prod.fst := by
      intro hin
      obtain ⟨e, he, hk⟩ := List.mem_map.mp hin
      have := List.find?_eq_none.mp hfind e he
      simp [hk] at this
    refine ⟨?_, ?_, ?_, ?_, ?_⟩
    · simp [List.range_succ, h.newIndex_eq]
    · intro entry hentry
      rcases List.mem_append.mp hentry with h2 | h2
      · exact h.cell_eq entry h2
      · rw [List.mem_singleton.mp h2]
    · simp only [List.map_append, List.map_cons, List.map_nil]
      refine List.Nodup.append h.nodup (List.nodup_singleton _) ?_
      simpa [List.disjoint_singleton] using hnot
    · simp only [List.map_append, List.map_cons, List.map_nil]
      congr 1
      · rw [h.out_eq]
        apply List.map_congr_left
        intro it2 hit2
        exact (lookupNew_append_of_mem table _ _ (h.present it2 hit2)).symm
      · have hfind2 : table.find? (fun entry => decide (entry.1 = cell it)) = none := hfind
        simp [lookupNew, List.find?_append, hfind2]
    · intro it2 hit2
      simp only [List.map_append, List.map_cons, List.map_nil, List.mem_append,
        List.mem_singleton]
      rcases List.mem_append.mp hit2 with h2 | h2
      · exact Or.inl (h.present it2 h2)
      · exact Or.inr (by rw [List.mem_singleton.mp h2])

theorem passInv_foldl {vertexSize : Nat} (cell : Nat → Fin vertexSize → Nat)
    (rest : List Nat) :
    ∀ (done : List Nat) (table : Table vertexSize) (out : List Nat),
      PassInv cell done table out →
      PassInv cell (done ++ rest) (rest.foldl (insertVertex cell) (table, out)).1
        (rest.foldl (insertVertex cell) (table, out)).2 := by
  induction rest with
  | nil => intro done table out h; simpa using h
  | cons it rest ih =>
    intro done table out h
    have hstep := passInv_step cell done table out it h
    have := ih (done ++ [it]) _ _ hstep
    simpa [List.foldl_cons, List.append_assoc] using this

theorem foldl_set_eq_map {vertexSize : Nat} {V : Type}
    (f : (Fin vertexSize → Nat) × HashedVertex → V) :
    ∀ (l : Table vertexSize) (pre post : List V),
      l.map (fun entry => entry.2.newIndex) = List.range' pre.length l.length →
      post.length = l.length →
      l.foldl (fun newVertices entry => newVertices.set entry.2.newIndex (f entry))
        (pre ++ post) = pre ++ l.map f := by
  intro l
  induction l with
  | nil =>
    intro pre post _ hpost
    simp [List.length_eq_zero.mp hpost]
  | cons entry l ih =>
    intro pre post hidx hpost
    cases post with
    | nil => simp at hpost
    | cons p post =>
      simp only [List.map_cons, List.length_cons, List.range'_succ, List.cons.injEq] at hidx
      simp only [List.foldl_cons, List.map_cons, hidx.1]
      have hset : (pre ++ p :: post).set pre.length (f entry) = (pre ++ [f entry]) ++ post := by
        simp [List.set_append_right]
      rw [hset, ih (pre ++ [f entry]) post (by simpa using hidx.2) (by simpa using hpost)]
      simp

theorem shrinkVertices_eq_map {vertexSize size : Nat} {T : Type} [LinearOrderedField T]
    (table : Table vertexSize) (vertices : List (Math.Vector size T))
    (h : table.map (fun entry => entry.2.newIndex) = List.range table.length) :
    shrinkVertices table vertices
      = table.map (fun entry => vertices.getD entry.2.oldIndex (fun _ => 0)) := by
  have := foldl_set_eq_map (fun entry => vertices.getD entry.2.oldIndex (fun _ => 0))
    table [] (List.replicate table.length (fun _ => 0))
    (by simpa [List.range_eq_range'] using h) (by simp)
  simpa [shrinkVertices] using this

theorem cellIndex_congr {size : Nat} {T : Type} [LinearOrderedField T] [FloorRing T]
    (lim : NumericLimits T) (vertexSize : Nat) (hsize : vertexSize ≤ size)
    (min moved : Math.Vector size T) (epsilon : T) (v w : Math.Vector size T)
    (h : AgreeOn vertexSize v w) :
    cellIndex lim vertexSize hsize min moved epsilon v
      = cellIndex lim vertexSize hsize min moved epsilon w := by
  funext ii
  simp only [cellIndex]
  rw [h (Fin.castLE hsize ii) (by simp)]

theorem cleanPass_inv {size : Nat} {T : Type} [LinearOrderedField T] [FloorRing T]
    (lim : NumericLimits T) (vertexSize : Nat) (hsize : vertexSize ≤ size)
    (min : Math.Vector size T) (epsilon : T) (moved : Math.Vector size T)
    (state : List Nat × List (Math.Vector size T)) :
    ∃ table : Table vertexSize,
      PassInv (fun it => cellIndex lim vertexSize hsize min moved epsilon
          (state.2.getD it (fun _ => 0))) state.1 table
        (cleanPass lim vertexSize hsize min epsilon moved state).1 ∧
      (cleanPass lim vertexSize hsize min epsilon moved state).2
        = table.map (fun entry => state.2.getD entry.2.oldIndex (fun _ => 0)) := by
  have h := passInv_foldl (fun it => cellIndex lim vertexSize hsize min moved epsilon
    (state.2.getD it (fun _ => 0))) state.1 [] [] [] (passInv_nil _)
  rw [List.nil_append] at h
  exact ⟨_, h, shrinkVertices_eq_map _ _ h.newIndex_eq⟩

theorem cleanPass_sameVertex {size : Nat} {T : Type} [LinearOrderedField T] [FloorRing T]
    (lim : NumericLimits T) (vertexSize : Nat) (hsize : vertexSize ≤ size)
    (min : Math.Vector size T) (epsilon : T) (moved : Math.Vector size T)
    (state : List Nat × List (Math.Vector size T)) (p q : Nat)
    (h : SameVertex vertexSize state.1 state.2 p q) :
    ∃ c, (cleanPass lim vertexSize hsize min epsilon moved state).1[p]? = some c ∧
      (cleanPass lim vertexSize hsize min epsilon moved state).1[q]? = some c := by
  obtain ⟨table, hinv, -⟩ := cleanPass_inv lim vertexSize hsize min epsilon moved state
  obtain ⟨a, b, ha, hb, hab⟩ := h
  have hcell := cellIndex_congr lim vertexSize hsize min moved epsilon _ _ hab
  refine ⟨lookupNew table (cellIndex lim vertexSize hsize min moved epsilon
    (state.2.getD a (fun _ => 0))), ?_, ?_⟩
  · rw [hinv.out_eq, List.getElem?_map, ha]; rfl
  · rw [hinv.out_eq, List.getElem?_map, hb, hcell]; rfl

theorem cleanPass_distinct {size : Nat} {T : Type} [LinearOrderedField T] [FloorRing T]
    (lim : NumericLimits T) (vertexSize : Nat) (hsize : vertexSize ≤ size)
    (min : Math.Vector size T) (epsilon : T) (moved : Math.Vector size T)
    (state : List Nat × List (Math.Vector size T)) (i j : Nat) (v w : Math.Vector size T)
    (hi : (cleanPass lim vertexSize hsize min epsilon moved state).2[i]? = some v)
    (hj : (cleanPass lim vertexSize hsize min epsilon moved state).2[j]? = some w)
    (hvw : AgreeOn vertexSize v w) : i = j := by
  obtain ⟨table, hinv, hverts⟩ := cleanPass_inv lim vertexSize hsize min epsilon moved state
  rw [hverts, List.getElem?_map] at hi hj
  cases hei : table[i]? with
  | none => simp [hei] at hi
  | some ei =>
    cases hej : table[j]? with
    | none => simp [hej] at hj
    | some ej =>
      simp only [hei, hej, Option.map_some', Option.some.injEq] at hi hj
      have hki := hinv.cell_eq ei (List.getElem?_mem hei)
      have hkj := hinv.cell_eq ej (List.getElem?_mem hej)
      have hk : ei.1 = ej.1 := by
        rw [hki, hkj]
        have := cellIndex_congr lim vertexSize hsize min moved epsilon v w hvw
        rw [← hi, ← hj] at this
        exact this
      have h1 : (table.map Prod.fst)[i]? = some ei.1 := by rw [List.getElem?_map, hei]; rfl
      have h2 : (table.map Prod.fst)[j]? = some ej.1 := by rw [List.getElem?_map, hej]; rfl
      have hlt : i < (table.map Prod.fst).length := (List.getElem?_eq_some_iff.mp h1).1
      exact List.getElem?_inj hlt hinv.nodup (by rw [h1, h2, hk])

theorem movingStep_sameVertex {size : Nat} {T : Type} [LinearOrderedField T] [FloorRing T]
    (lim : NumericLimits T) (vertexSize : Nat) (hsize : vertexSize ≤ size)
    (min : Math.Vector size T) (epsilon : T) (p q : Nat) (moving : Nat)
    (loop : (List Nat × List (Math.Vector size T)) × Math.Vector size T)
    (h : SameVertex vertexSize loop.1.1 loop.1.2 p q) :
    SameVertex vertexSize (movingStep lim vertexSize hsize min epsilon loop moving).1.1
      (movingStep lim vertexSize hsize min epsilon loop moving).1.2 p q := by
  obtain ⟨c, hp, hq⟩ := cleanPass_sameVertex lim vertexSize hsize min epsilon loop.2 loop.1 p q h
  exact ⟨c, c, hp, hq, fun _ _ => rfl⟩

theorem foldl_movingStep_sameVertex {size : Nat} {T : Type} [LinearOrderedField T]
    [FloorRing T] (lim : NumericLimits T) (vertexSize : Nat) (hsize : vertexSize ≤ size)
    (min : Math.Vector size T) (epsilon : T) (p q : Nat) (movings : List Nat) :
    ∀ loop : (List Nat × List (Math.Vector size T)) × Math.Vector size T,
      SameVertex vertexSize loop.1.1 loop.1.2 p q →
      SameVertex vertexSize
        (movings.foldl (movingStep lim vertexSize hsize min epsilon) loop).1.1
        (movings.foldl (movingStep lim vertexSize hsize min epsilon) loop).1.2 p q := by
  induction movings with
  | nil => intro loop h; exact h
  | cons moving movings ih =>
    intro loop h
    exact ih _ (movingStep_sameVertex lim vertexSize hsize min epsilon p q moving loop h)

theorem clean_eq_cleanPass {size : Nat} {T : Type} [LinearOrderedField T] [FloorRing T]
    (lim : NumericLimits T) (vertexSize : Nat) (hsize : vertexSize ≤ size)
    (indices : List Nat) (vertices : List (Math.Vector size T)) (epsilon : T)
    (hne : indices ≠ []) :
    clean lim vertexSize hsize indices vertices epsilon
      = cleanPass lim vertexSize hsize (meshBounds lim vertexSize hsize vertices).1
          (enlargeEpsilon lim (meshBounds lim vertexSize hsize vertices).1
            (meshBounds lim vertexSize hsize vertices).2 epsilon)
          ((List.range vertexSize).foldl
            (movingStep lim vertexSize hsize (meshBounds lim vertexSize hsize vertices).1
              (enlargeEpsilon lim (meshBounds lim vertexSize hsize vertices).1
                (meshBounds lim vertexSize hsize vertices).2 epsilon))
            ((indices, vertices), fun _ => 0)).2
          ((List.range vertexSize).foldl
            (movingStep lim vertexSize hsize (meshBounds lim vertexSize hsize vertices).1
              (enlargeEpsilon lim (meshBounds lim vertexSize hsize vertices).1
                (meshBounds lim vertexSize hsize vertices).2 epsilon))
            ((indices, vertices), fun _ => 0)).1 := by
  have hempty : indices.isEmpty = false := by
    cases indices with
    | nil => exact absurd rfl hne
    | cons _ _ => rfl
  simp only [clean, hempty, List.range_succ, List.foldl_append, List.foldl_cons, List.foldl_nil]
  rfl

theorem insertVertex_oldIndex_mem {vertexSize : Nat} (cell : Nat → Fin vertexSize → Nat)
    (rest : List Nat) :
    ∀ (done : List Nat) (table : Table vertexSize) (out : List Nat),
      (∀ entry ∈ table, entry.2.oldIndex ∈ done) →
      ∀ entry ∈ (rest.foldl (insertVertex cell) (table, out)).1,
        entry.2.oldIndex ∈ done ++ rest := by
  induction rest with
  | nil => intro done table out h entry hentry; simpa using h entry hentry
  | cons it rest ih =>
    intro done table out h entry hentry
    rw [List.foldl_cons] at hentry
    have hstep : ∀ e ∈ (insertVertex cell (table, out) it).1, e.2.oldIndex ∈ done ++ [it] := by
      intro e he
      unfold insertVertex at he
      cases hfind : table.find? (fun entry => decide (entry.1 = cell it)) with
      | some found =>
        simp only [hfind] at he
        exact List.mem_append_left _ (h e he)
      | none =>
        simp only [hfind] at he
        rcases List.mem_append.mp he with h2 | h2
        · exact List.mem_append_left _ (h e h2)
        · rw [List.mem_singleton.mp h2]
          simp
    have := ih (done ++ [it]) _ _ hstep entry hentry
    simpa [List.append_assoc] using this

theorem lookupNew_spec {vertexSize : Nat} (table : Table vertexSize)
    (cell : Fin vertexSize → Nat) (h : cell ∈ table.map Prod.fst) :
    ∃ entry ∈ table, entry.1 = cell ∧ lookupNew table cell = entry.2.newIndex := by
  obtain ⟨e, he, hk⟩ := List.mem_map.mp h
  have hsome : (table.find? (fun entry => decide (entry.1 = cell))).isSome := by
    rw [List.find?_isSome]
    exact ⟨e, he, by simp [hk]⟩
  obtain ⟨x, hx⟩ := Option.isSome_iff_exists.mp hsome
  refine ⟨x, List.mem_of_find?_eq_some hx, by simpa using List.find?_some hx, ?_⟩
  simp [lookupNew, hx]

theorem cleanPass_table {size : Nat} {T : Type} [LinearOrderedField T] [FloorRing T]
    (lim : NumericLimits T) (vertexSize : Nat) (hsize : vertexSize ≤ size)
    (min : Math.Vector size T) (epsilon : T) (moved : Math.Vector size T)
    (state : List Nat × List (Math.Vector size T)) :
    ∃ table : Table vertexSize,
      PassInv (fun it => cellIndex lim vertexSize hsize min moved epsilon
          (state.2.getD it (fun _ => 0))) state.1 table
        (cleanPass lim vertexSize hsize min epsilon moved state).1 ∧
      (cleanPass lim vertexSize hsize min epsilon moved state).2
        = table.map (fun entry => state.2.getD entry.2.oldIndex (fun _ => 0)) ∧
      ∀ entry ∈ table, entry.2.oldIndex ∈ state.1 := by
  have h := passInv_foldl (fun it => cellIndex lim vertexSize hsize min moved epsilon
    (state.2.getD it (fun _ => 0))) state.1 [] [] [] (passInv_nil _)
  have hold := insertVertex_oldIndex_mem (fun it => cellIndex lim vertexSize hsize min moved
    epsilon (state.2.getD it (fun _ => 0))) state.1 [] [] [] (by simp)
  rw [List.nil_append] at h hold
  exact ⟨_, h, shrinkVertices_eq_map _ _ h.newIndex_eq, hold⟩

theorem cleanPass_anchor {size : Nat} {T : Type} [LinearOrderedField T] [FloorRing T]
    (lim : NumericLimits T) (vertexSize : Nat) (hsize : vertexSize ≤ size)
    (min : Math.Vector size T) (epsilon : T) (moved : Math.Vector size T)
    (state : List Nat × List (Math.Vector size T))
    (hvalid : ∀ it ∈ state.1, it < state.2.length) :
    (∃ f : Nat → Nat,
      (cleanPass lim vertexSize hsize min epsilon moved state).1 = state.1.map f) ∧
    (∀ it ∈ (cleanPass lim vertexSize hsize min epsilon moved state).1,
      it < (cleanPass lim vertexSize hsize min epsilon moved state).2.length) ∧
    (∀ (j : Nat) (v : Math.Vector size T),
      (cleanPass lim vertexSize hsize min epsilon moved state).2[j]? = some v →
      ∃ (q a : Nat), state.1[q]? = some a ∧ state.2[a]? = some v ∧
        (cleanPass lim vertexSize hsize min epsilon moved state).1[q]? = some j) := by
  obtain ⟨table, hinv, hverts, hold⟩ :=
    cleanPass_table lim vertexSize hsize min epsilon moved state
  refine ⟨⟨_, hinv.out_eq⟩, ?_, ?_⟩
  · intro x hx
    rw [hinv.out_eq] at hx
    obtain ⟨it, hit, rfl⟩ := List.mem_map.mp hx
    obtain ⟨e, he, -, hl⟩ := lookupNew_spec table _ (hinv.present it hit)
    rw [hl, hverts, List.length_map]
    have hmem : e.2.newIndex ∈ table.map (fun entry => entry.2.newIndex) :=
      List.mem_map_of_mem _ he
    rw [hinv.newIndex_eq] at hmem
    exact List.mem_range.mp hmem
  · intro j v hj
    rw [hverts, List.getElem?_map] at hj
    cases hej : table[j]? with
    | none => simp [hej] at hj
    | some e =>
      simp only [hej, Option.map_some', Option.some.injEq] at hj
      have hjlt : j < table.length := (List.getElem?_eq_some_iff.mp hej).1
      have hmem : e ∈ table := List.getElem?_mem hej
      have hnew : e.2.newIndex = j := by
        have h1 := congrArg (fun l => l[j]?) hinv.newIndex_eq
        simp only [List.getElem?_map, hej, Option.map_some', List.getElem?_range hjlt,
          Option.some.injEq] at h1
        exact h1
      have hold2 := hold e hmem
      obtain ⟨q, hq⟩ := List.mem_iff_getElem?.mp hold2
      have halt : e.2.oldIndex < state.2.length := hvalid _ hold2
      obtain ⟨e2, he2, hk, hl⟩ := lookupNew_spec table _ (hinv.present _ hold2)
      have hsame : e2 = e := by
        apply List.inj_on_of_nodup_map hinv.nodup he2 hmem
        rw [hk, hinv.cell_eq e hmem]
      refine ⟨q, e.2.oldIndex, hq, ?_, ?_⟩
      · rw [← hj, List.getD_eq_getElem _ _ halt, List.getElem?_eq_getElem halt]
      · rw [hinv.out_eq, List.getElem?_map, hq, Option.map_some', hl, hsame, hnew]

theorem cleanPass_anchored {size : Nat} {T : Type} [LinearOrderedField T] [FloorRing T]
    (lim : NumericLimits T) (vertexSize : Nat) (hsize : vertexSize ≤ size)
    (min : Math.Vector size T) (epsilon : T) (moved : Math.Vector size T)
    (indices : List Nat) (vertices : List (Math.Vector size T))
    (state : List Nat × List (Math.Vector size T)) (h : Anchored indices vertices state) :
    Anchored indices vertices (cleanPass lim vertexSize hsize min epsilon moved state) := by
  obtain ⟨⟨f, hf⟩, hval, hanc⟩ :=
    cleanPass_anchor lim vertexSize hsize min epsilon moved state h.valid
  refine ⟨?_, hval, ?_⟩
  · rw [hf, List.length_map, h.length_eq]
  · intro j v _ hj
    obtain ⟨q, a, hq, ha, hqj⟩ := hanc j v hj
    obtain ⟨q0, a0, h0, hv0, hq0⟩ := h.anchor a v (List.getElem?_mem hq) ha
    refine ⟨q0, a0, h0, hv0, ?_⟩
    rw [hf, List.getElem?_map, hq, Option.map_some'] at hqj
    rw [hf, List.getElem?_map, hq0, Option.map_some']
    exact hqj

theorem foldl_movingStep_anchored {size : Nat} {T : Type} [LinearOrderedField T]
    [FloorRing T] (lim : NumericLimits T) (vertexSize : Nat) (hsize : vertexSize ≤ size)
    (min : Math.Vector size T) (epsilon : T) (indices : List Nat)
    (vertices : List (Math.Vector size T)) (movings : List Nat) :
    ∀ loop : (List Nat × List (Math.Vector size T)) × Math.Vector size T,
      Anchored indices vertices loop.1 →
      Anchored indices vertices
        (movings.foldl (movingStep lim vertexSize hsize min epsilon) loop).1 := by
  induction movings with
  | nil => intro loop h; exact h
  | cons moving movings ih =>
    intro loop h
    exact ih _ (cleanPass_anchored lim vertexSize hsize min epsilon loop.2 indices vertices
      loop.1 h)

theorem anchored_initial {size : Nat} {T : Type} (indices : List Nat)
    (vertices : List (Math.Vector size T)) (hvalid : ∀ it ∈ indices, it < vertices.length) :
    Anchored indices vertices (indices, vertices) := by
  refine ⟨rfl, hvalid, ?_⟩
  intro j v hj hv
  obtain ⟨q, hq⟩ := List.mem_iff_getElem?.mp hj
  exact ⟨q, j, hq, hv, hq⟩

/-- C4: `MeshTools::clean` removes duplicate vertices. For every non-empty index
array whose entries are all valid and every `epsilon > 0`, after
`clean(indices, vertices, epsilon)` no two entries of the vertex array agree in
their first `vertexSize` coordinates, and any two index entries that referred to
vertices agreeing in those coordinates before the call hold the same index after
it. The arrays that are left are those of the mesh: the index array has kept
its length, every index entry is a valid position of the new vertex array, and
every vertex of the new array is the vertex some index entry referred to before
the call, that entry referring to it after the call. -/
theorem clean_removes_duplicates {size : Nat} {T : Type} [LinearOrderedField T]
    [FloorRing T] (lim : NumericLimits T) (vertexSize : Nat) (hsize : vertexSize ≤ size)
    (indices : List Nat) (vertices : List (Math.Vector size T)) (epsilon : T)
    (hne : indices ≠ []) (hvalid : ∀ it ∈ indices, it < vertices.length)
    (_hepsilon : 0 < epsilon) :
    (∀ (i j : Nat) (v w : Math.Vector size T),
        (clean lim vertexSize hsize indices vertices epsilon).2[i]? = some v →
        (clean lim vertexSize hsize indices vertices epsilon).2[j]? = some w →
        AgreeOn vertexSize v w → i = j) ∧
    (∀ (p q a b : Nat) (v w : Math.Vector size T),
        indices[p]? = some a → indices[q]? = some b →
        vertices[a]? = some v → vertices[b]? = some w → AgreeOn vertexSize v w →
        ∃ c, (clean lim vertexSize hsize indices vertices epsilon).1[p]? = some c ∧
          (clean lim vertexSize hsize indices vertices epsilon).1[q]? = some c) ∧
    (clean lim vertexSize hsize indices vertices epsilon).1.length = indices.length ∧
    (∀ c ∈ (clean lim vertexSize hsize indices vertices epsilon).1,
        c < (clean lim vertexSize hsize indices vertices epsilon).2.length) ∧
    (∀ (j : Nat) (v : Math.Vector size T),
        (clean lim vertexSize hsize indices vertices epsilon).2[j]? = some v →
        ∃ (q a : Nat), indices[q]? = some a ∧ vertices[a]? = some v ∧
          (clean lim vertexSize hsize indices vertices epsilon).1[q]? = some j) := by
  rw [clean_eq_cleanPass lim vertexSize hsize indices vertices epsilon hne]
  have hprev := foldl_movingStep_anchored lim vertexSize hsize
    (meshBounds lim vertexSize hsize vertices).1
    (enlargeEpsilon lim (meshBounds lim vertexSize hsize vertices).1
      (meshBounds lim vertexSize hsize vertices).2 epsilon)
    indices vertices (List.range vertexSize) ((indices, vertices), fun _ => 0)
    (anchored_initial indices vertices hvalid)
  have hlast := cleanPass_anchored lim vertexSize hsize
    (meshBounds lim vertexSize hsize vertices).1
    (enlargeEpsilon lim (meshBounds lim vertexSize hsize vertices).1
      (meshBounds lim vertexSize hsize vertices).2 epsilon)
    ((List.range vertexSize).foldl
      (movingStep lim vertexSize hsize (meshBounds lim vertexSize hsize vertices).1
        (enlargeEpsilon lim (meshBounds lim vertexSize hsize vertices).1
          (meshBounds lim vertexSize hsize vertices).2 epsilon))
      ((indices, vertices), fun _ => 0)).2
    indices vertices _ hprev
  refine ⟨?_, ?_, hlast.length_eq, hlast.valid, ?_⟩
  · intro i j v w hi hj hvw
    exact cleanPass_distinct _ _ _ _ _ _ _ i j v w hi hj hvw
  · intro p q a b v w hp hq hv hw hvw
    apply cleanPass_sameVertex
    apply foldl_movingStep_sameVertex
    refine ⟨a, b, hp, hq, ?_⟩
    simpa [List.getD_eq_getElem?_getD, hv, hw] using hvw
  · intro j v hj
    obtain ⟨-, -, hanc⟩ := cleanPass_anchor lim vertexSize hsize _ _ _ _ hprev.valid
    obtain ⟨q, a, -, -, hqj⟩ := hanc j v hj
    exact hlast.anchor j v (List.getElem?_mem hqj) hj

/-- Witness for C4: the index array `[0, 1, 2, 3]` over the vertices 5, 5, 7, 5
with `epsilon = 1`. The three vertices at 5 are duplicates of each other; the
call leaves the indices `[0, 0, 1, 0]` and the vertices 5, 7. -/
theorem clean_removes_duplicates_witness :
    (([0, 1, 2, 3] : List Nat) ≠ [] ∧
      (∀ it ∈ ([0, 1, 2, 3] : List Nat), it < duplicateVertices.length) ∧ (0 : ℚ) < 1) ∧
    ((clean floatLimits 1 (le_refl 1) [0, 1, 2, 3] duplicateVertices 1).1 = [0, 0, 1, 0] ∧
      (clean floatLimits 1 (le_refl 1) [0, 1, 2, 3] duplicateVertices 1).2.map (fun v => v 0)
        = [5, 7]) ∧
    ((∀ (i j : Nat) (v w : Math.Vector 1 ℚ),
        (clean floatLimits 1 (le_refl 1) [0, 1, 2, 3] duplicateVertices 1).2[i]? = some v →
        (clean floatLimits 1 (le_refl 1) [0, 1, 2, 3] duplicateVertices 1).2[j]? = some w →
        AgreeOn 1 v w → i = j) ∧
    (∀ (p q a b : Nat) (v w : Math.Vector 1 ℚ),
        ([0, 1, 2, 3] : List Nat)[p]? = some a → ([0, 1, 2, 3] : List Nat)[q]? = some b →
        duplicateVertices[a]? = some v → duplicateVertices[b]? = some w → AgreeOn 1 v w →
        ∃ c, (clean floatLimits 1 (le_refl 1) [0, 1, 2, 3] duplicateVertices 1).1[p]? = some c ∧
          (clean floatLimits 1 (le_refl 1) [0, 1, 2, 3] duplicateVertices 1).1[q]? = some c) ∧
    (clean floatLimits 1 (le_refl 1) [0, 1, 2, 3] duplicateVertices 1).1.length
      = ([0, 1, 2, 3] : List Nat).length ∧
    (∀ c ∈ (clean floatLimits 1 (le_refl 1) [0, 1, 2, 3] duplicateVertices 1).1,
        c < (clean floatLimits 1 (le_refl 1) [0, 1, 2, 3] duplicateVertices 1).2.length) ∧
    (∀ (j : Nat) (v : Math.Vector 1 ℚ),
        (clean floatLimits 1 (le_refl 1) [0, 1, 2, 3] duplicateVertices 1).2[j]? = some v →
        ∃ (q a : Nat), ([0, 1, 2, 3] : List Nat)[q]? = some a ∧ duplicateVertices[a]? = some v ∧
          (clean floatLimits 1 (le_refl 1) [0, 1, 2, 3] duplicateVertices 1).1[q]? = some j)) :=
  ⟨⟨by decide, by decide, by norm_num⟩, ⟨by decide!, by decide!⟩,
    clean_removes_duplicates floatLimits 1 (le_refl 1) [0, 1, 2, 3] duplicateVertices 1
      (by decide) (by decide) (by norm_num)⟩

/-- C5: vertices nearer than `epsilon` are not always melted together. With
`epsilon = 1` the index entries 1 and 2 refer to the vertices 1/4 and 1, at
distance 3/4 from each other, and after `clean` they hold the different indices
0 and 1: the vertices lie in different cells both before and after the move by
`epsilon/2`. -/
theorem clean_keeps_near_vertices_apart :
    |(exampleVertices.getD 1 (fun _ => 0)) 0 - (exampleVertices.getD 2 (fun _ => 0)) 0| < 1 ∧
    (clean floatLimits 1 (le_refl 1) [0, 1, 2] exampleVertices 1).1 = [0, 0, 1] ∧
    (clean floatLimits 1 (le_refl 1) [0, 1, 2] exampleVertices 1).2.map (fun v => v 0)
      = [0, 1] := by
  refine ⟨?_, by decide!, by decide!⟩
  simp only [exampleVertices, List.getD_cons_succ, List.getD_cons_zero]
  norm_num [abs_lt]

end MeshTools
end Magnum

namespace Magnum
namespace MeshTools

/-! ## Theorems: `MeshTools::clean` on well separated vertices -/

theorem agreeOn_symm {size : Nat} {T : Type} (vertexSize : Nat) (v w : Math.Vector size T)
    (h : AgreeOn vertexSize v w) : AgreeOn vertexSize w v :=
  fun i hi => (h i hi).symm

end MeshTools
end Magnum
namespace Magnum
namespace Physics

/-! ## Theorems: `ShapeGroup` -/

theorem op_tag {Shape : Type} (type : Nat) (a b : Operand Shape)
    (h : type = Implementation.And ∨ type = Implementation.Or) :
    (op type a b).operation &&& Implementation.notRefAB = type := by
  rcases h with h | h <;> subst h <;> cases a <;> cases b <;> simp only [op] <;> decide

theorem op_collides {Shape : Type} (type : Nat) (a b : Operand Shape)
    (collidesWithOther : Shape → Bool) :
    ShapePointer.collides collidesWithOther (op type a b).a = collidesWithOther a.shape ∧
    ShapePointer.collides collidesWithOther (op type a b).b = collidesWithOther b.shape := by
  cases a <;> cases b <;> exact ⟨rfl, rfl⟩

/-- C6: the logical operators of `ShapeGroup` use short-circuit evaluation. For
every pair of operands `a`, `b`, passed in any of the nine ways, and every
collision behaviour of the shapes with `other`: `(a && b).collides(other)` is
`a.collides(other) && b.collides(other)` and evaluates only the first child when
`a` does not collide; `(a || b).collides(other)` is
`a.collides(other) || b.collides(other)` and evaluates only the first child when
`a` collides. -/
theorem collides_shortCircuit {Shape : Type} (a b : Operand Shape)
    (collidesWithOther : Shape → Bool) :
    (((operatorAnd a b).collides collidesWithOther).1
        = (collidesWithOther a.shape && collidesWithOther b.shape) ∧
      (collidesWithOther a.shape = false →
        ((operatorAnd a b).collides collidesWithOther).2 = [Side.first])) ∧
    (((operatorOr a b).collides collidesWithOther).1
        = (collidesWithOther a.shape || collidesWithOther b.shape) ∧
      (collidesWithOther a.shape = true →
        ((operatorOr a b).collides collidesWithOther).2 = [Side.first])) := by
  have hand := op_tag Implementation.And a b (Or.inl rfl)
  have hor := op_tag Implementation.Or a b (Or.inr rfl)
  have hne : Implementation.Or ≠ Implementation.And := by decide
  obtain ⟨ha, hb⟩ := op_collides Implementation.And a b collidesWithOther
  obtain ⟨ha2, hb2⟩ := op_collides Implementation.Or a b collidesWithOther
  simp only [operatorAnd, operatorOr, ShapeGroup.collides, hand, hor, hne, if_true, if_false,
    ha, hb, ha2, hb2]
  cases h : collidesWithOther a.shape <;> simp

/-- C7: every constructible group has the children its operation requires. The
default-constructed group has operation `AlwaysFalse` and null `first()` and
`second()`; a group built by any overload of `operator!` has a non-null
`first()` and a null `second()`; a group built by any overload of `operator&&`
or `operator||` has both `first()` and `second()` non-null. -/
theorem children_populated {Shape : Type} :
    ((ShapeGroup.default Shape).operation = Implementation.AlwaysFalse ∧
      (ShapeGroup.default Shape).first = ShapePointer.null ∧
      (ShapeGroup.default Shape).second = ShapePointer.null) ∧
    (∀ a : NotOperand Shape,
      (operatorNot a).first ≠ ShapePointer.null ∧
      (operatorNot a).second = ShapePointer.null) ∧
    (∀ a b : Operand Shape,
      (operatorAnd a b).first ≠ ShapePointer.null ∧
      (operatorAnd a b).second ≠ ShapePointer.null ∧
      (operatorOr a b).first ≠ ShapePointer.null ∧
      (operatorOr a b).second ≠ ShapePointer.null) := by
  refine ⟨⟨rfl, rfl, rfl⟩, ?_, ?_⟩
  · intro a
    cases a <;> simp [operatorNot, ShapeGroup.first, ShapeGroup.second]
  · intro a b
    cases a <;> cases b <;>
      simp [operatorAnd, operatorOr, op, ShapeGroup.first, ShapeGroup.second]

/-- C8: in every group built by `operator!`, `operator&&` or `operator||` the
`RefA` (resp. `RefB`) bit of the stored operation is set exactly when the first
(resp. second) child pointer is the address of the caller's own object rather
than a newly allocated copy; and every operation tag is a multiple of 4, so for
all 20 combinations of a tag with reference flags, `(tag | refs) & 0x03` is the
flags and `(tag | refs) & ~0x03` is the tag. -/
theorem reference_flags {Shape : Type} :
    (∀ a : NotOperand Shape,
      ((operatorNot a).operation &&& Implementation.RefA ≠ 0
        ↔ (operatorNot a).first.isReference = true) ∧
      ((operatorNot a).operation &&& Implementation.RefB ≠ 0
        ↔ (operatorNot a).second.isReference = true)) ∧
    (∀ a b : Operand Shape,
      ((operatorAnd a b).operation &&& Implementation.RefA ≠ 0
        ↔ (operatorAnd a b).first.isReference = true) ∧
      ((operatorAnd a b).operation &&& Implementation.RefB ≠ 0
        ↔ (operatorAnd a b).second.isReference = true) ∧
      ((operatorOr a b).operation &&& Implementation.RefA ≠ 0
        ↔ (operatorOr a b).first.isReference = true) ∧
      ((operatorOr a b).operation &&& Implementation.RefB ≠ 0
        ↔ (operatorOr a b).second.isReference = true)) ∧
    (∀ tag ∈ [Implementation.And, Implementation.Or, Implementation.Not,
        Implementation.FirstObjectOnly, Implementation.AlwaysFalse],
      tag % 4 = 0 ∧
      ∀ refs ∈ [0, Implementation.RefA, Implementation.RefB, Implementation.RefAB],
        (tag ||| refs) &&& 0x03 = refs ∧
        (tag ||| refs) &&& Implementation.notRefAB = tag) := by
  refine ⟨?_, ?_, by decide⟩
  · intro a
    cases a <;> simp only [operatorNot, ShapeGroup.first, ShapeGroup.second,
      ShapePointer.isReference] <;> decide
  · intro a b
    cases a <;> cases b <;> simp only [operatorAnd, operatorOr, op, ShapeGroup.first,
      ShapeGroup.second, ShapePointer.isReference] <;> decide

end Physics
end Magnum

namespace Magnum
namespace Physics

/-! ## Theorems: `Capsule` -/

/-- C15: `Capsule::b()` does not return the end point. For every capsule
constructed with start point `a`, end point `b` and a radius, `b()` returns
`a`, also after `setB(x)`; for the capsule from `(0, 0, 0)` to `(1, 0, 0)` the
result `(0, 0, 0)` differs from the end point, and after `setB((2, 0, 0))` it
still is `(0, 0, 0)`. -/
theorem Capsule.b_returns_start_point :
    (∀ (T : Type) (a b x : Math.Vector 3 T) (radius : T),
      (Capsule.new a b radius).b = a ∧ ((Capsule.new a b radius).setB x).b = a) ∧
    (Capsule.new (T := ℚ) ![0, 0, 0] ![1, 0, 0] 1).b ≠ ![1, 0, 0] ∧
    ((Capsule.new (T := ℚ) ![0, 0, 0] ![1, 0, 0] 1).setB ![2, 0, 0]).b ≠ ![2, 0, 0] := by
  refine ⟨fun T a b x radius => ⟨rfl, rfl⟩, ?_, ?_⟩
  · intro h
    have := congrFun h 0
    simp [Capsule.b, Capsule.new] at this
  · intro h
    have := congrFun h 0
    simp [Capsule.b, Capsule.new, Capsule.setB] at this

end Physics
end Magnum

namespace Magnum
namespace SceneGraph

/-! ## Theorems: the object tree -/

theorem cleanList_eq_map {X : Type} (strategy : TransformationStrategy X)
    (parentAbsolute : Option X) (cs : List (Object X)) :
    Object.cleanList strategy parentAbsolute cs
      = cs.map (Object.clean strategy parentAbsolute) := by
  induction cs with
  | nil => rfl
  | cons child cs ih => simp [Object.cleanList, ih]

theorem get?_cons {X : Type} (object : Object X) (i : Nat) (path : List Nat) :
    object.get? (i :: path)
      = (object.children[i]?).bind (fun child => child.get? path) := by
  simp only [Object.get?]
  cases object.children[i]? <;> rfl

theorem composeAlong_cons {X : Type} (strategy : TransformationStrategy X) (p : X)
    (object : Object X) (i : Nat) (path : List Nat) :
    Object.composeAlong strategy p object (i :: path)
      = (object.children[i]?).bind (fun child =>
          Object.composeAlong strategy (strategy.compose p object.transformation) child path) := by
  simp only [Object.composeAlong]
  cases object.children[i]? <;> rfl

theorem composeAlong_isSome {X : Type} (strategy : TransformationStrategy X) :
    ∀ (path : List Nat) (p : X) (object found : Object X),
      object.get? path = some found →
      ∃ x, Object.composeAlong strategy p object path = some x := by
  intro path
  induction path with
  | nil => intro p object found _; exact ⟨_, rfl⟩
  | cons i path ih =>
    intro p object found h
    rw [get?_cons] at h
    rw [composeAlong_cons]
    cases hc : object.children[i]? with
    | none => simp [hc] at h
    | some child =>
      simp only [hc, Option.some_bind] at h ⊢
      exact ih _ child found h

theorem clean_passes_absolute {X : Type} (strategy : TransformationStrategy X) (p : X)
    (object : Object X)
    (h : object.isDirty = false → object.absolute
      = some (strategy.compose p object.transformation)) :
    (Object.clean strategy (some p) object).absolute
        = some (strategy.compose p object.transformation) ∧
      (Object.clean strategy (some p) object).children
        = object.children.map
            (Object.clean strategy (some (strategy.compose p object.transformation))) := by
  cases object with
  | mk t a d cs =>
    cases d with
    | true => simp [Object.clean, Object.absolute, Object.children, Object.transformation,
        cleanList_eq_map]
    | false =>
      have ha : a = some (strategy.compose p t) := h rfl
      simp [Object.clean, Object.absolute, Object.children, Object.transformation,
        cleanList_eq_map, ha]

theorem clean_get?_absolute {X : Type} (strategy : TransformationStrategy X) :
    ∀ (path : List Nat) (p : X) (object found : Object X),
      (∀ (sub : List Nat) (below : Object X), object.get? sub = some below →
        below.isDirty = false →
        below.absolute = Object.composeAlong strategy p object sub) →
      object.get? path = some found →
      ∃ cleaned, (Object.clean strategy (some p) object).get? path = some cleaned ∧
        cleaned.absolute = Object.composeAlong strategy p object path := by
  intro path
  induction path with
  | nil =>
    intro p object found hvalid _
    refine ⟨_, rfl, ?_⟩
    exact (clean_passes_absolute strategy p object (fun hd => hvalid [] object rfl hd)).1
  | cons i path ih =>
    intro p object found hvalid hfound
    have hpass := clean_passes_absolute strategy p object (fun hd => hvalid [] object rfl hd)
    rw [get?_cons] at hfound
    rw [get?_cons, composeAlong_cons, hpass.2, List.getElem?_map]
    cases hc : object.children[i]? with
    | none => simp [hc] at hfound
    | some child =>
      simp only [hc, Option.some_bind, Option.map_some'] at hfound ⊢
      refine ih _ child found ?_ hfound
      intro sub below hbelow hclean
      have := hvalid (i :: sub) below (by rw [get?_cons, hc]; exact hbelow) hclean
      rw [this, composeAlong_cons, hc]
      rfl

theorem scene_clean_cached {X : Type} (strategy : TransformationStrategy X) (root found : Object X)
    (path : List Nat) (hroot : root.absolute = some strategy.identity)
    (hvalid : Scene.CacheValid strategy root) (hfound : root.get? path = some found) :
    ∃ cleaned x, (Scene.clean strategy root).get? path = some cleaned ∧
      Scene.composeAlong strategy root path = some x ∧ cleaned.absolute = some x := by
  cases root with
  | mk t a d cs =>
    cases path with
    | nil => exact ⟨_, strategy.identity, rfl, rfl, hroot⟩
    | cons i path =>
      rw [get?_cons] at hfound
      simp only [Object.children] at hfound
      cases hc : cs[i]? with
      | none => simp [hc] at hfound
      | some child =>
        simp only [hc, Option.some_bind] at hfound
        obtain ⟨x, hx⟩ := composeAlong_isSome strategy path strategy.identity child found hfound
        obtain ⟨cleaned, hget, habs⟩ := clean_get?_absolute strategy path strategy.identity
          child found (by
            intro sub below hbelow hclean
            have := hvalid (i :: sub) below (by simp)
              (by rw [get?_cons]; simp only [Object.children, hc]; exact hbelow) hclean
            rw [this]
            simp [Scene.composeAlong, Object.children, hc]) hfound
        refine ⟨cleaned, x, ?_, ?_, ?_⟩
        · rw [Scene.clean, get?_cons]
          simp only [Object.children, cleanList_eq_map, List.getElem?_map, hc, Option.map_some',
            Option.some_bind]
          exact hget
        · simp only [Scene.composeAlong, Object.children, hc]
          exact hx
        · rw [habs, hx]

/-- C9: for every tree and every object `N` in it, after `clean()` has been
run on the whole tree, the cached absolute transformation of `N` is the
composition of the local transformations along the path from the scene root to
`N`, in root-to-`N` order. The tree is any that satisfies the invariants of the
data model: the scene root has the identity as absolute transformation, and
the cache of every clean object is valid. -/
theorem clean_absolute_eq_composition {X : Type} (strategy : TransformationStrategy X)
    (root N : Object X) (path : List Nat) (hroot : root.absolute = some strategy.identity)
    (hvalid : Scene.CacheValid strategy root) (hN : root.get? path = some N) :
    ∃ cleaned x, (Scene.clean strategy root).get? path = some cleaned ∧
      Scene.composeAlong strategy root path = some x ∧ cleaned.absolute = some x :=
  scene_clean_cached strategy root N path hroot hvalid hN

theorem exampleScene_cacheValid : Scene.CacheValid translations exampleScene := by
  intro path object hne hget hclean
  rcases path with _ | ⟨i, path⟩
  · exact absurd rfl hne
  · rcases i with _ | i
    · rcases path with _ | ⟨j, path⟩
      · simp [exampleScene, Object.get?, Object.children] at hget
        subst hget
        rfl
      · rcases j with _ | j
        · rcases path with _ | ⟨k, path⟩
          · simp [exampleScene, Object.get?, Object.children] at hget
            subst hget
            simp [Object.isDirty] at hclean
          · simp [exampleScene, Object.get?, Object.children] at hget
        · simp [exampleScene, Object.get?, Object.children] at hget
    · simp [exampleScene, Object.get?, Object.children] at hget

/-- Witness for C9: the object B of the chain Root, A, B, with A already
clean and B dirty, gets the absolute translation `(1, 1)`. -/
theorem clean_absolute_eq_composition_witness :
    ∃ cleaned x, (Scene.clean translations exampleScene).get? [0, 0] = some cleaned ∧
      Scene.composeAlong translations exampleScene [0, 0] = some x ∧
      cleaned.absolute = some x :=
  clean_absolute_eq_composition translations exampleScene (Object.mk (0, 1) none true [])
    [0, 0] rfl exampleScene_cacheValid rfl

mutual
theorem setDirty_allDirty {X : Type} :
    ∀ object : Object X, object.dirtyMonotone = true → (Object.setDirty object).allDirty = true
  | Object.mk t a true cs => by
    intro h
    simp only [Object.dirtyMonotone, Bool.not_true, Bool.false_or, Bool.and_eq_true] at h
    simp [Object.setDirty, Object.allDirty, h.1]
  | Object.mk t a false cs => by
    intro h
    simp only [Object.dirtyMonotone, Bool.not_false, Bool.true_or, Bool.true_and] at h
    simp [Object.setDirty, Object.allDirty, setDirtyList_allDirty cs h]
theorem setDirtyList_allDirty {X : Type} :
    ∀ cs : List (Object X), Object.dirtyMonotoneList cs = true →
      Object.allDirtyList (Object.setDirtyList cs) = true
  | [] => by intro _; rfl
  | child :: cs => by
    intro h
    simp only [Object.dirtyMonotoneList, Bool.and_eq_true] at h
    simp [Object.setDirtyList, Object.allDirtyList, setDirty_allDirty child h.1,
      setDirtyList_allDirty cs h.2]
end

theorem allDirtyList_getElem? {X : Type} :
    ∀ (cs : List (Object X)) (i : Nat) (child : Object X),
      Object.allDirtyList cs = true → cs[i]? = some child → child.allDirty = true
  | [], _, _ => by intro _ h; simp at h
  | c :: cs, 0, child => by
    intro h hc
    simp only [Object.allDirtyList, Bool.and_eq_true] at h
    simp only [List.getElem?_cons_zero, Option.some.injEq] at hc
    rw [← hc]; exact h.1
  | c :: cs, i + 1, child => by
    intro h hc
    simp only [Object.allDirtyList, Bool.and_eq_true] at h
    simp only [List.getElem?_cons_succ] at hc
    exact allDirtyList_getElem? cs i child h.2 hc

theorem allDirty_get? {X : Type} :
    ∀ (sub : List Nat) (object below : Object X), object.allDirty = true →
      object.get? sub = some below → below.isDirty = true := by
  intro sub
  induction sub with
  | nil =>
    intro object below h hget
    simp only [Object.get?, Option.some.injEq] at hget
    subst hget
    cases object with
    | mk t a d cs =>
      simp only [Object.allDirty, Bool.and_eq_true] at h
      exact h.1
  | cons i sub ih =>
    intro object below h hget
    rw [get?_cons] at hget
    cases hc : object.children[i]? with
    | none => simp [hc] at hget
    | some child =>
      simp only [hc, Option.some_bind] at hget
      cases object with
      | mk t a d cs =>
        simp only [Object.allDirty, Bool.and_eq_true] at h
        exact ih child below (allDirtyList_getElem? cs i child h.2 hc) hget

theorem get?_modify {X : Type} (f : Object X → Object X) :
    ∀ (path : List Nat) (object found : Object X), object.get? path = some found →
      (Object.modify f object path).get? path = some (f found) := by
  intro path
  induction path with
  | nil =>
    intro object found h
    simp only [Object.get?, Option.some.injEq] at h
    subst h
    cases object with
    | mk t a d cs => rfl
  | cons i path ih =>
    intro object found h
    rw [get?_cons] at h
    cases object with
    | mk t a d cs =>
      simp only [Object.children] at h
      cases hc : cs[i]? with
      | none => simp [hc] at h
      | some child =>
        simp only [hc, Option.some_bind] at h
        have hlt : i < cs.length := (List.getElem?_eq_some_iff.mp hc).1
        simp only [Object.modify, hc]
        rw [get?_cons]
        simp only [Object.children, List.getElem?_set_self hlt, Option.some_bind]
        exact ih child found h

theorem modify_isDirty {X : Type} (f : Object X → Object X)
    (hf : ∀ object, (f object).isDirty = object.isDirty) (object : Object X)
    (path : List Nat) : (Object.modify f object path).isDirty = object.isDirty := by
  cases path with
  | nil =>
    cases object with
    | mk t a d cs => exact hf _
  | cons i path =>
    cases object with
    | mk t a d cs =>
      simp only [Object.modify]
      cases cs[i]? <;> rfl

theorem modify_cons_isDirty {X : Type} (f : Object X → Object X) (object : Object X)
    (i : Nat) (path : List Nat) :
    (Object.modify f object (i :: path)).isDirty = object.isDirty := by
  cases object with
  | mk t a d cs =>
    simp only [Object.modify]
    cases cs[i]? <;> rfl

theorem apply_isDirty {X : Type} (strategy : TransformationStrategy X) (root : Object X)
    (operation : Operation X) : (Scene.apply strategy root operation).isDirty = root.isDirty := by
  cases operation with
  | setTransformation path newLocal =>
    cases path with
    | nil => rfl
    | cons i path => exact modify_cons_isDirty _ root i path
  | setParent object newParent =>
    simp only [Scene.apply, Scene.setParent]
    split
    · rfl
    · split
      · simp only
        rw [modify_isDirty _ (fun o => by cases o; rfl), modify_isDirty _ (fun o => by cases o; rfl)]
      · rfl
  | cleanObject path =>
    cases path with
    | nil => rfl
    | cons i path =>
      simp only [Scene.apply, Scene.cleanObject]
      cases root.children[i]? <;> rfl
  | clean =>
    cases root with
    | mk t a d cs => rfl

theorem foldl_apply_isDirty {X : Type} (strategy : TransformationStrategy X)
    (operations : List (Operation X)) :
    ∀ root : Object X,
      (operations.foldl (Scene.apply strategy) root).isDirty = root.isDirty := by
  induction operations with
  | nil => intro root; rfl
  | cons operation operations ih =>
    intro root
    rw [List.foldl_cons, ih, apply_isDirty]

/-- C10: for every object `N` other than the scene root and every new local
transformation, immediately after `setTransformation` on `N` the object holds
the new transformation and `N` and every descendant of `N` are Dirty; and no
sequence of operations (`setTransformation`, `setParent`, `clean` of an object
or of the whole tree) makes the scene root Dirty. The subtree of `N` is any
that satisfies the invariant of the data model that below a dirty object
everything is dirty. -/
theorem setTransformation_marks_dirty {X : Type} (strategy : TransformationStrategy X)
    (root N : Object X) (path : List Nat) (newLocal : X) (hpath : path ≠ [])
    (hN : root.get? path = some N) (hmonotone : N.dirtyMonotone = true) :
    (∃ changed, (Scene.setTransformation root path newLocal).get? path = some changed ∧
      changed.transformation = newLocal ∧
      ∀ (sub : List Nat) (below : Object X), changed.get? sub = some below →
        below.isDirty = true) ∧
    (∀ (scene : Object X) (operations : List (Operation X)), scene.isDirty = false →
      (operations.foldl (Scene.apply strategy) scene).isDirty = false) := by
  constructor
  · cases path with
    | nil => exact absurd rfl hpath
    | cons i rest =>
      refine ⟨_, get?_modify _ (i :: rest) root N hN, ?_, ?_⟩
      · cases N with
        | mk t a d cs => cases d <;> rfl
      · intro sub below hbelow
        refine allDirty_get? sub _ below (setDirty_allDirty _ ?_) hbelow
        cases N with
        | mk t a d cs => exact hmonotone
  · intro scene operations hclean
    rw [foldl_apply_isDirty, hclean]

/-- Witness for C10: `setTransformation` on the clean object A of the chain
Root, A, B, whose child B is dirty. -/
theorem setTransformation_marks_dirty_witness :
    (∃ changed, (Scene.setTransformation exampleScene [0] (5, 0)).get? [0] = some changed ∧
      changed.transformation = (5, 0) ∧
      ∀ (sub : List Nat) (below : Object (Int × Int)), changed.get? sub = some below →
        below.isDirty = true) ∧
    (∀ (scene : Object (Int × Int)) (operations : List (Operation (Int × Int))),
      scene.isDirty = false →
      (operations.foldl (Scene.apply translations) scene).isDirty = false) :=
  setTransformation_marks_dirty translations exampleScene
    (Object.mk (1, 0) (some (1, 0)) false [Object.mk (0, 1) none true []]) [0] (5, 0)
    (by decide) rfl rfl

end SceneGraph
end Magnum

namespace Magnum
namespace SceneGraph

/-! ## Theorems: reparenting, translations along a chain -/

theorem translationChain_clean (a b : Math.Vector 2 ℚ) :
    (Scene.clean matrixStrategy (translationChain a b)).get? [0, 0]
      = some (Object.mk (Math.Matrix3.translationMatrix b)
          (some (Math.Matrix3.translationMatrix (Math.Vector.add a b))) false []) := by
  have h : (Scene.clean matrixStrategy (translationChain a b)).get? [0, 0]
      = some (Object.mk (Math.Matrix3.translationMatrix b)
          (some (((Math.Matrix.identity 3 ℚ).mul (Math.Matrix3.translationMatrix a)).mul
            (Math.Matrix3.translationMatrix b))) false []) := rfl
  rw [h, Math.identity_mul, Math.translationMatrix_mul]

/-- C20: composing translations adds them. For all vectors `a` and `b`,
`Matrix3::translation(a) * Matrix3::translation(b)` is
`Matrix3::translation(a + b)`; so in a chain Root, A, B with the local
translations `(1, 0)` then `(0, 1)` the object B gets, by the clean pass with
the matrix strategy, an absolute transformation whose translation is `(1, 1)`,
and with `(5, 0)` then `(0, 1)` it is `(5, 1)`. -/
theorem translations_compose :
    (∀ (T : Type) [Field T] (a b : Math.Vector 2 T),
      (Math.Matrix3.translationMatrix a).mul (Math.Matrix3.translationMatrix b)
        = Math.Matrix3.translationMatrix (Math.Vector.add a b)) ∧
    (∃ cleaned absolute,
      (Scene.clean matrixStrategy (translationChain ![1, 0] ![0, 1])).get? [0, 0]
        = some cleaned ∧
      cleaned.absolute = some absolute ∧ Math.Matrix3.translation absolute = ![1, 1]) ∧
    (∃ cleaned absolute,
      (Scene.clean matrixStrategy (translationChain ![5, 0] ![0, 1])).get? [0, 0]
        = some cleaned ∧
      cleaned.absolute = some absolute ∧ Math.Matrix3.translation absolute = ![5, 1]) := by
  refine ⟨fun T _ a b => Math.translationMatrix_mul a b, ?_, ?_⟩
  · refine ⟨_, _, translationChain_clean _ _, rfl, ?_⟩
    rw [Math.translation_translationMatrix]
    funext i
    fin_cases i <;> simp [Math.Vector.add]
  · refine ⟨_, _, translationChain_clean _ _, rfl, ?_⟩
    rw [Math.translation_translationMatrix]
    funext i
    fin_cases i <;> simp [Math.Vector.add]

theorem isPrefixOf_append (object sub : List Nat) :
    object.isPrefixOf (object ++ sub) = true := by
  induction object with
  | nil => simp [List.isPrefixOf]
  | cons i object ih => simp [List.isPrefixOf, ih]

/-- C11: for every object `N` and every `D` that is `N` itself or a descendant
of `N` (the path of `D` continues the path of `N`), `setParent(D)` on `N` is
rejected with the reported error `cycle` and leaves the tree unchanged: the
tree after the call is the tree before it, so the child lists of the old
parent of `N` and of `D` are the same as before. -/
theorem setParent_descendant_rejected {X : Type} (root : Object X) (object sub : List Nat) :
    (Scene.setParent root object (object ++ sub)).2 = some SceneError.cycle ∧
    (Scene.setParent root object (object ++ sub)).1 = root ∧
    ((Scene.setParent root object (object ++ sub)).1.get? object.dropLast).map Object.children
      = (root.get? object.dropLast).map Object.children ∧
    ((Scene.setParent root object (object ++ sub)).1.get? (object ++ sub)).map Object.children
      = (root.get? (object ++ sub)).map Object.children := by
  have h : Scene.setParent root object (object ++ sub) = (root, some SceneError.cycle) := by
    simp [Scene.setParent, isPrefixOf_append]
  rw [h]
  exact ⟨rfl, rfl, rfl, rfl⟩

end SceneGraph
end Magnum

namespace Magnum
namespace SceneGraph

/-! ## Theorems: features -/

/-- C12: when an object is cleaned, the feature at any position of its list
receives, after the calls it had before, `clean()` with the absolute
transformation iff `CachedTransformation::Absolute` is in its
`cachedTransformations()`, and then `cleanInverted()` with the inverted
absolute transformation iff `CachedTransformation::InvertedAbsolute` is in it.
A feature requesting only `InvertedAbsolute` receives the single call
`cleanInverted()`; a feature requesting both receives exactly one call of
each. -/
theorem setClean_calls {X : Type} (strategy : TransformationStrategy X)
    (object : AbstractObject X) (absolute : X) (position : Nat) (feature : AbstractFeature X)
    (h : object.features[position]? = some feature) :
    ∃ cleaned received,
      (object.setClean strategy absolute).features[position]? = some cleaned ∧
      cleaned.calls = feature.calls ++ received ∧
      ((∃ m, FeatureCall.clean m ∈ received) ↔
        CachedTransformations.contains feature.cachedTransformations
          Implementation.Absolute = true) ∧
      ((∃ m, FeatureCall.cleanInverted m ∈ received) ↔
        CachedTransformations.contains feature.cachedTransformations
          Implementation.InvertedAbsolute = true) ∧
      FeatureCall.markDirty ∉ received ∧
      (feature.cachedTransformations = Implementation.InvertedAbsolute →
        received = [FeatureCall.cleanInverted (strategy.invert absolute)]) ∧
      (feature.cachedTransformations
          = Implementation.Absolute ||| Implementation.InvertedAbsolute →
        received = [FeatureCall.clean absolute,
          FeatureCall.cleanInverted (strategy.invert absolute)]) := by
  refine ⟨AbstractFeature.cleanedBy absolute (strategy.invert absolute) feature,
    (if CachedTransformations.contains feature.cachedTransformations
        Implementation.Absolute then [FeatureCall.clean absolute] else [])
      ++ (if CachedTransformations.contains feature.cachedTransformations
        Implementation.InvertedAbsolute then
          [FeatureCall.cleanInverted (strategy.invert absolute)] else []),
    ?_, ?_, ?_, ?_, ?_, ?_, ?_⟩
  · simp [AbstractObject.setClean, h]
  · simp [AbstractFeature.cleanedBy, List.append_assoc]
  · cases CachedTransformations.contains feature.cachedTransformations
        Implementation.Absolute <;>
      cases CachedTransformations.contains feature.cachedTransformations
        Implementation.InvertedAbsolute <;> simp
  · cases CachedTransformations.contains feature.cachedTransformations
        Implementation.Absolute <;>
      cases CachedTransformations.contains feature.cachedTransformations
        Implementation.InvertedAbsolute <;> simp
  · cases CachedTransformations.contains feature.cachedTransformations
        Implementation.Absolute <;>
      cases CachedTransformations.contains feature.cachedTransformations
        Implementation.InvertedAbsolute <;> simp
  · intro hset
    rw [hset]
    have h1 : CachedTransformations.contains Implementation.InvertedAbsolute
        Implementation.Absolute = false := by decide
    have h2 : CachedTransformations.contains Implementation.InvertedAbsolute
        Implementation.InvertedAbsolute = true := by decide
    simp [h1, h2]
  · intro hset
    rw [hset]
    have h1 : CachedTransformations.contains
        (Implementation.Absolute ||| Implementation.InvertedAbsolute)
        Implementation.Absolute = true := by decide
    have h2 : CachedTransformations.contains
        (Implementation.Absolute ||| Implementation.InvertedAbsolute)
        Implementation.InvertedAbsolute = true := by decide
    simp [h1, h2]

/-- Witness for C12: the feature requesting only `InvertedAbsolute`, at
position 1 of the example object, with translations. -/
theorem setClean_calls_witness :
    ∃ cleaned received,
      (exampleFeatures.setClean translations (1, 1)).features[1]? = some cleaned ∧
      cleaned.calls = [] ++ received ∧
      ((∃ m, FeatureCall.clean m ∈ received) ↔
        CachedTransformations.contains Implementation.InvertedAbsolute
          Implementation.Absolute = true) ∧
      ((∃ m, FeatureCall.cleanInverted m ∈ received) ↔
        CachedTransformations.contains Implementation.InvertedAbsolute
          Implementation.InvertedAbsolute = true) ∧
      FeatureCall.markDirty ∉ received ∧
      (Implementation.InvertedAbsolute = Implementation.InvertedAbsolute →
        received = [FeatureCall.cleanInverted (translations.invert (1, 1))]) ∧
      (Implementation.InvertedAbsolute
          = Implementation.Absolute ||| Implementation.InvertedAbsolute →
        received = [FeatureCall.clean (1, 1),
          FeatureCall.cleanInverted (translations.invert (1, 1))]) :=
  setClean_calls translations exampleFeatures (1, 1) 1
    ⟨some 7, Implementation.InvertedAbsolute, []⟩ rfl

theorem foldl_setCachedTransformations {X : Type} (sets : List Nat) :
    ∀ feature : AbstractFeature X,
      (sets.foldl AbstractFeature.setCachedTransformations feature).cachedTransformations
        = sets.getLastD feature.cachedTransformations ∧
      (sets.foldl AbstractFeature.setCachedTransformations feature).list = feature.list ∧
      (sets.foldl AbstractFeature.setCachedTransformations feature).calls = feature.calls := by
  induction sets with
  | nil => intro feature; exact ⟨rfl, rfl, rfl⟩
  | cons s sets ih =>
    intro feature
    obtain ⟨h1, h2, h3⟩ := ih (feature.setCachedTransformations s)
    refine ⟨?_, ?_, ?_⟩
    · rw [List.foldl_cons, h1]
      cases sets <;> rfl
    · rw [List.foldl_cons, h2]; rfl
    · rw [List.foldl_cons, h3]; rfl

/-- C13: `cachedTransformations()` is the empty set for a freshly constructed
feature, and after any sequence of `setCachedTransformations` calls it is the
set passed to the last call. The setter changes nothing else: the holder
object and the calls of `clean()`, `cleanInverted()` and `markDirty()` recorded
for the feature stay as they were, and in the list of the object the sibling
links of every position, the identity of the object and every other feature
are unchanged. -/
theorem cachedTransformations_last_set {X : Type} :
    (∀ object : AbstractObject X,
      ∃ feature, (AbstractFeature.new object).1.features[(AbstractFeature.new object).2]?
          = some feature ∧
        feature.cachedTransformations = 0 ∧ feature.calls = [] ∧
        (∀ flag, CachedTransformations.contains feature.cachedTransformations flag = false)) ∧
    (∀ (feature : AbstractFeature X) (sets : List Nat) (last : Nat),
      sets.getLast? = some last →
      (sets.foldl AbstractFeature.setCachedTransformations feature).cachedTransformations
          = last ∧
        (sets.foldl AbstractFeature.setCachedTransformations feature).object
          = feature.object ∧
        (sets.foldl AbstractFeature.setCachedTransformations feature).calls
          = feature.calls) ∧
    (∀ (object : AbstractObject X) (position transformations : Nat),
      (object.setCachedTransformations position transformations).id = object.id ∧
      (∀ other,
        (object.setCachedTransformations position transformations).previousFeature other
            = object.previousFeature other ∧
          (object.setCachedTransformations position transformations).nextFeature other
            = object.nextFeature other) ∧
      (∀ other, other ≠ position →
        (object.setCachedTransformations position transformations).features[other]?
          = object.features[other]?) ∧
      (∀ feature, object.features[position]? = some feature →
        (object.setCachedTransformations position transformations).features[position]?
          = some (feature.setCachedTransformations transformations))) := by
  refine ⟨?_, ?_, ?_⟩
  · intro object
    refine ⟨⟨some object.id, 0, []⟩, ?_, rfl, rfl, ?_⟩
    · simp [AbstractFeature.new, AbstractObject.insert]
    · intro flag
      simp [CachedTransformations.contains, AbstractFeature.cachedTransformations]
  · intro feature sets last hlast
    obtain ⟨h1, h2, h3⟩ := foldl_setCachedTransformations sets feature
    refine ⟨?_, h2, h3⟩
    rw [h1, List.getLastD_eq_getLast?, hlast]
    rfl
  · intro object position transformations
    unfold AbstractObject.setCachedTransformations
    cases hf : object.features[position]? with
    | none =>
      refine ⟨rfl, fun _ => ⟨rfl, rfl⟩, fun _ _ => rfl, ?_⟩
      intro feature h
      simp at h
    | some found =>
      have hlt : position < object.features.length := (List.getElem?_eq_some_iff.mp hf).1
      refine ⟨rfl, fun _ => ⟨?_, ?_⟩, ?_, ?_⟩
      · simp [AbstractObject.previousFeature]
      · simp [AbstractObject.nextFeature]
      · intro other hne
        simp [List.getElem?_set_ne (Ne.symm hne)]
      · intro feature h
        simp only [Option.some.injEq] at h
        subst h
        simp [List.getElem?_set_self hlt]

/-- C14: for every object `o`, constructing a feature with `o` registers it in
the feature list of `o`: afterwards `object()` of the feature returns `o`, the
feature is an element of the list, at the position the constructor returns, and
the features that were already in the list are still there, unchanged and at
the same positions, hence in the same relative order. -/
theorem new_registers_feature {X : Type} (object : AbstractObject X) :
    ∃ feature,
      (AbstractFeature.new object).1.features[(AbstractFeature.new object).2]? = some feature ∧
      feature.object = some object.id ∧
      (AbstractFeature.new object).1.id = object.id ∧
      feature ∈ (AbstractFeature.new object).1.features ∧
      (AbstractFeature.new object).1.features = object.features ++ [feature] ∧
      (∀ (position : Nat) (before : AbstractFeature X),
        object.features[position]? = some before →
        (AbstractFeature.new object).1.features[position]? = some before) ∧
      (AbstractFeature.new object).1.previousFeature (AbstractFeature.new object).2
        = (if object.features.length = 0 then none else some (object.features.length - 1)) ∧
      (AbstractFeature.new object).1.nextFeature (AbstractFeature.new object).2 = none := by
  refine ⟨⟨some object.id, 0, []⟩, ?_, rfl, rfl, ?_, rfl, ?_, ?_, ?_⟩
  · simp [AbstractFeature.new, AbstractObject.insert]
  · simp [AbstractFeature.new, AbstractObject.insert]
  · intro position before h
    have hlt : position < object.features.length := (List.getElem?_eq_some_iff.mp h).1
    simp [AbstractFeature.new, AbstractObject.insert, List.getElem?_append_left hlt, h]
  · simp only [AbstractFeature.new, AbstractObject.insert, AbstractObject.previousFeature,
      List.length_append, List.length_singleton]
    cases hlen : object.features.length with
    | zero => simp
    | succ n => simp
  · simp [AbstractFeature.new, AbstractObject.insert, AbstractObject.nextFeature]

end SceneGraph
end Magnum

namespace Magnum
namespace SceneGraph

/-! ## Theorems: the round trip of the matrix strategy -/

/-- C22: the round trip as claimed fails. With the matrix strategy and
parentAbsolute and local both the scaling by 2, an invertible matrix,
`compose(invert(compose(P, L)), L)` is the scaling by 1/2 and not `P`: its
first diagonal entry is 1/2 where `P` has 2. -/
theorem roundTrip_fails_for_doubling :
    Math.Matrix.determinant Math.doubling ≠ 0 ∧
    matrixStrategy.compose
        (matrixStrategy.invert (matrixStrategy.compose Math.doubling Math.doubling))
        Math.doubling 0 0 = 1 / 2 ∧
    Math.doubling 0 0 = 2 ∧
    matrixStrategy.compose
        (matrixStrategy.invert (matrixStrategy.compose Math.doubling Math.doubling))
        Math.doubling ≠ Math.doubling := by
  have h1 : matrixStrategy.compose
      (matrixStrategy.invert (matrixStrategy.compose Math.doubling Math.doubling))
      Math.doubling 0 0 = 1 / 2 := by decide!
  have h2 : Math.doubling 0 0 = 2 := by decide!
  refine ⟨by decide!, h1, h2, ?_⟩
  intro h
  have h3 := congrFun (congrFun h 0) 0
  rw [h1, h2] at h3
  norm_num at h3

end SceneGraph
end Magnum

